import Mathlib

/-!
Verification of the WebmOpusDemuxer (src/src/demuxers/WebmOpus.js).

The demuxer is a Node.js Transform stream that incrementally parses a WebM
(EBML) byte stream, locates the Opus audio track and emits the raw Opus
packets.  We shallowly embed the source: buffers become `List Nat` (byte
values), JS numbers become `Int` with explicit 32-bit wrapping where the
source relies on JS bitwise operators, the `TOO_SHORT` sentinel becomes
`Option`/a dedicated constructor, thrown errors become `Except`, and the
`while` loop of `_transform` becomes a fuel-indexed recursion (the fuel
`chunk.length + 1` dominates the iteration count because every successful
`_readTag` advances the offset by at least two bytes, and the loop otherwise
stops; runs that would revisit offsets surface as `.fuelOut`).
-/

namespace WebmOpus

/-! ### JS primitives

`jsGet b i` models `b[i]` on a Buffer: `none` is JS `undefined`.
`jsSlice` models `Buffer.prototype.slice` (negative indices count from the
end, then both are clamped to `[0, length]`).  `toUint32`/`toInt32` are the
ECMAScript conversions; `jsAnd`/`jsShl` are the JS `&` and `<<` operators
on numbers (both convert to Int32 and return an Int32). -/

def jsGet (b : List Nat) (i : Int) : Option Nat :=
  if 0 ≤ i then b[i.toNat]? else none

def jsSlice (b : List Nat) (s e : Int) : List Nat :=
  let len : Int := b.length
  let s' := if s < 0 then max (len + s) 0 else min s len
  let e' := if e < 0 then max (len + e) 0 else min e len
  if s' < e' then (b.take e'.toNat).drop s'.toNat else []

def toUint32 (x : Int) : Nat := (x % 4294967296).toNat

def toInt32 (x : Int) : Int :=
  if toUint32 x < 2147483648 then (toUint32 x : Int) else (toUint32 x : Int) - 4294967296

def jsAnd (a b : Int) : Int := toInt32 ((toUint32 a &&& toUint32 b : Nat) : Int)

def jsShl (a b : Int) : Int := toInt32 ((toUint32 a : Int) * 2 ^ (toUint32 b % 32))

/-- Truthiness of `this._skipUntil` / `result._skipUntil`: `null` and `0` are
falsy, every other number is truthy. -/
def jsTruthyOpt (x : Option Int) : Bool :=
  match x with
  | none => false
  | some t => t ≠ 0

/-! ### The vint reader (source lines 174-193)

`msbScan x` is the value of `i` after the loop
`for (; i < 8; i++) if ((1 << (7 - i)) & buffer[index]) break;`.
A JS `undefined` byte makes every conjunction `0`, exactly like the byte `0`,
so `vintLength` feeds `(jsGet …).getD 0` to the scan. -/

def msbScan (x : Nat) : Nat :=
  if x &&& 128 ≠ 0 then 0
  else if x &&& 64 ≠ 0 then 1
  else if x &&& 32 ≠ 0 then 2
  else if x &&& 16 ≠ 0 then 3
  else if x &&& 8 ≠ 0 then 4
  else if x &&& 4 ≠ 0 then 5
  else if x &&& 2 ≠ 0 then 6
  else if x &&& 1 ≠ 0 then 7
  else 8

/-- `function vintLength(buffer, index)`; `none` is the `TOO_SHORT` symbol. -/
def vintLength (buffer : List Nat) (index : Int) : Option Nat :=
  let i := msbScan ((jsGet buffer index).getD 0) + 1
  if index + (i : Int) > (buffer.length : Int) then none else some i

/-- The body iterations of the loop
`for (let i = start + 1; i < end; i++) value = (value << 8) + buffer[i];`,
performed `n` times starting at index `i`.
An out-of-range `buffer[i]` would be `undefined` and poison `value` with `NaN`
in JS; that needs `i < 0`, which cannot happen when `0 ≤ start` (the bounds
`start + 1 ≤ i < end ≤ buffer.length` are then all in range), so we read
through `getD 0`. -/
def expandSteps (buffer : List Nat) : Nat → Int → Int → Int
  | 0, _, value => value
  | n + 1, i, value =>
    expandSteps buffer n (i + 1) (jsShl value 8 + (((jsGet buffer i).getD 0 : Nat) : Int))

/-- The loop of `expandVint`: it runs while `i < end`, that is exactly
`(end - i).toNat` times for the initial `i`. -/
def expandLoop (buffer : List Nat) (stop i value : Int) : Int :=
  expandSteps buffer (stop - i).toNat i value

/-- `function expandVint(buffer, start, end)`; `none` is the `TOO_SHORT` symbol. -/
def expandVint (buffer : List Nat) (start stop : Int) : Option Int :=
  match vintLength buffer start with
  | none => none
  | some length =>
    if stop > (buffer.length : Int) then none
    else
      let mask := jsShl 1 (8 - (length : Int)) - 1
      some (expandLoop buffer stop (start + 1) (jsAnd (((jsGet buffer start).getD 0 : Nat) : Int) mask))

/-! ### Static data of the demuxer -/

/-- `const OPUS_HEAD = Buffer.from('OpusHead')`. -/
def OPUS_HEAD : List Nat := [79, 112, 117, 115, 72, 101, 97, 100]

/-- The hex string `'1a45dfa3'` as the byte sequence it denotes.  Buffer
`toString('hex')` is injective, so comparing hex strings in the source is the
same as comparing byte sequences here. -/
def ebmlId : List Nat := [0x1a, 0x45, 0xdf, 0xa3]

/-- `WebmOpusDemuxer.TAGS`: `some b` when the ID is a key with value `b`
(`b = true` means the element has children), `none` for unknown IDs. -/
def TAGS (id : List Nat) : Option Bool :=
  if id = [0x1a, 0x45, 0xdf, 0xa3] then some true
  else if id = [0x18, 0x53, 0x80, 0x67] then some true
  else if id = [0x1f, 0x43, 0xb6, 0x75] then some true
  else if id = [0x16, 0x54, 0xae, 0x6b] then some true
  else if id = [0xae] then some true
  else if id = [0xd7] then some false
  else if id = [0x83] then some false
  else if id = [0xa3] then some false
  else if id = [0x63, 0xa2] then some false
  else none

/-! ### Parser state

`Core` collects the instance fields that tag processing reads and writes
besides the chunk bookkeeping: `_ebmlFound`, `_incompleteTrack.number`,
`_incompleteTrack.type` (a JS property holding `undefined` behaves exactly
like an absent one in every use site, so both are `none`), and `_track`
(only its `number` is ever read, and the object is frozen after promotion
because every `_incompleteTrack` write is guarded by `!this._track`). -/

structure Core where
  ebmlFound : Bool
  incompleteNumber : Option Nat
  incompleteType : Option Nat
  track : Option Nat
deriving DecidableEq, Repr

/-- The three `throw Error(...)` sites, plus `symbolArith` for the
(provably unreachable) arithmetic on the `TOO_SHORT` symbol that JS would
turn into a TypeError, and `fuelOut` for loop runs longer than the fuel. -/
inductive Err where
  | missingHeader
  | unsupportedCodec
  | noAudioTrack
  | symbolArith
  | fuelOut
deriving DecidableEq, Repr

/-- Result of `_readTag`.  `tooShort` carries the core because
`this._ebmlFound` may be set before a later `TOO_SHORT` return.  `step`
carries the new core, the returned `offset`, the optional `_skipUntil`
and the payload passed to `this.push`, if any. -/
inductive TagResult where
  | tooShort (core : Core)
  | step (core : Core) (offset : Int) (skip : Option Int) (emit : Option (List Nat))
deriving DecidableEq, Repr

/-- The core carried by a `_readTag` result. -/
def TagResult.resCore : TagResult → Core
  | .tooShort c => c
  | .step c _ _ _ => c

/-- `_readEBMLId(chunk, offset)`. -/
def readEBMLId (chunk : List Nat) (offset : Int) : Option (List Nat × Int) :=
  match vintLength chunk offset with
  | none => none
  | some idLength =>
    some (jsSlice chunk offset (offset + (idLength : Int)), offset + (idLength : Int))

/-- `_readTagDataSize(chunk, offset)`: the new offset together with
`dataLength` exactly as the source computes it (an `Option Int` because
`expandVint` can in principle return the `TOO_SHORT` symbol there). -/
def readTagDataSize (chunk : List Nat) (offset : Int) : Option (Int × Option Int) :=
  match vintLength chunk offset with
  | none => none
  | some sizeLength =>
    some (offset + (sizeLength : Int), expandVint chunk offset (offset + (sizeLength : Int)))

/-- Track discovery (source lines 124-131): the `_incompleteTrack` updates
and the promotion to `_track`.  The `'ae'` branch of line 125 is included
even though control can only reach these lines with a childless tag ID
(`'ae'` maps to `true` in `TAGS`, so `_readTag` returns at line 119 for it). -/
def discoverTrack (core0 : Core) (id data : List Nat) : Core :=
  if core0.track = none then
    let c1 := if id = [0xae] then { core0 with incompleteNumber := none, incompleteType := none }
              else core0
    let c2 := if id = [0xd7] then { c1 with incompleteNumber := jsGet data 0 } else c1
    let c3 := if id = [0x83] then { c2 with incompleteType := jsGet data 0 } else c2
    if c3.incompleteType = some 2 ∧ c3.incompleteNumber.isSome then
      { c3 with track := c3.incompleteNumber }
    else c3
  else core0

/-- Processing of a fully buffered known leaf tag (source lines 124-141):
track discovery, then the codec-signature check and the payload-block
dispatch.  Returns the updated core and the pushed payload, if any. -/
def leafEffect (core0 : Core) (id data : List Nat) : Except Err (Core × Option (List Nat)) :=
  let core1 := discoverTrack core0 id data
  if id = [0x63, 0xa2] then
    if jsSlice data 0 8 ≠ OPUS_HEAD then .error .unsupportedCodec
    else .ok (core1, none)
  else if id = [0xa3] then
    match core1.track with
    | none => .error .noAudioTrack
    | some n =>
      if jsAnd (((jsGet data 0).getD 0 : Nat) : Int) 15 = (n : Int) then
        .ok (core1, some (jsSlice data 4 (data.length : Int)))
      else .ok (core1, none)
  else .ok (core1, none)

/-- Lines 100-103 without the throw: `this._ebmlFound` after the gate ran
(it is only reached when `id` is the EBML ID or the flag was already set). -/
def coreFlag (core : Core) : Core :=
  if core.ebmlFound then core else { core with ebmlFound := true }

/-- `_readTag(chunk, offset)`; `count` is the value of `this._count` while the
method runs (it is only updated after the `_transform` loop). -/
def readTag (core : Core) (chunk : List Nat) (offset : Int) (count : Int) :
    Except Err TagResult :=
  match readEBMLId chunk offset with
  | none => .ok (.tooShort core)
  | some (id, offset1) =>
    if core.ebmlFound = false ∧ id ≠ ebmlId then .error .missingHeader
    else
      let core0 := coreFlag core
      match readTagDataSize chunk offset1 with
      | none => .ok (.tooShort core0)
      | some (offset2, dataLengthOpt) =>
        match dataLengthOpt with
        | none => .error .symbolArith
        | some dataLength =>
          match TAGS id with
          | none =>
            if (chunk.length : Int) > offset2 + dataLength then
              .ok (.step core0 (offset2 + dataLength) none none)
            else
              .ok (.step core0 offset2 (some (count + offset2 + dataLength)) none)
          | some true => .ok (.step core0 offset2 none none)
          | some false =>
            if offset2 + dataLength > (chunk.length : Int) then .ok (.tooShort core0)
            else
              let data := jsSlice chunk offset2 (offset2 + dataLength)
              Except.map (fun res => .step res.1 (offset2 + dataLength) none res.2)
                (leafEffect core0 id data)

/-- The `while (result !== TOO_SHORT)` loop of `_transform` (lines 39-49).
Returns the payloads pushed during the loop, then either an error or the
final core, the final local `offset` and the `_skipUntil` set by the loop
(`none` when the loop ended without setting one). -/
def parseLoop : Nat → Core → List Nat → Int → Int →
    List (List Nat) × Except Err (Core × Int × Option Int)
  | 0, _, _, _, _ => ([], .error .fuelOut)
  | fuel + 1, core, chunk, offset, count =>
    match readTag core chunk offset count with
    | .error e => ([], .error e)
    | .ok (.tooShort core') => ([], .ok (core', offset, none))
    | .ok (.step core' offset' skip emit) =>
      if jsTruthyOpt skip then (emit.toList, .ok (core', offset, skip))
      else if offset' ≠ 0 then
        let r := parseLoop fuel core' chunk offset' count
        (emit.toList ++ r.1, r.2)
      else (emit.toList, .ok (core', offset, none))

/-- The instance fields of the demuxer that `_transform` maintains. -/
structure DemuxState where
  remainder : Option (List Nat)
  length : Int
  count : Int
  skipUntil : Option Int
  core : Core
deriving DecidableEq, Repr

/-- The constructor's field initialisation. -/
def initState : DemuxState :=
  { remainder := none, length := 0, count := 0, skipUntil := none
    core := { ebmlFound := false, incompleteNumber := none, incompleteType := none, track := none } }

/-- Lines 39-52 of `_transform`: run the loop on the working buffer `chunk`
from `offset0`, then store `count + offset`, the unconsumed slice and the
skip target (`skip0` is what `this._skipUntil` holds when the loop starts;
the loop only ever overwrites it with a fresh target). -/
def transformLoop (core : Core) (chunk : List Nat) (offset0 count length1 : Int)
    (skip0 : Option Int) : List (List Nat) × Except Err DemuxState :=
  match parseLoop (chunk.length + 1) core chunk offset0 count with
  | (ems, .error e) => (ems, .error e)
  | (ems, .ok (core', offsetF, skipF)) =>
    (ems, .ok { remainder := some (jsSlice chunk offsetF (chunk.length : Int))
                length := length1
                count := count + offsetF
                skipUntil := match skipF with | some t => some t | none => skip0
                core := core' })

/-- `_transform(chunk, encoding, done)`. -/
def transform (s : DemuxState) (chunk0 : List Nat) : List (List Nat) × Except Err DemuxState :=
  let length1 : Int := s.length + (chunk0.length : Int)
  let chunk := match s.remainder with | some r => r ++ chunk0 | none => chunk0
  match s.skipUntil with
  | some t =>
    if t ≠ 0 then
      if length1 > t then
        transformLoop s.core chunk (t - s.count) s.count length1 none
      else
        ([], .ok { remainder := none, length := length1, count := s.count + (chunk.length : Int)
                   skipUntil := some t, core := s.core })
    else transformLoop s.core chunk 0 s.count length1 (some t)
  | none => transformLoop s.core chunk 0 s.count length1 none

/-- Feeding a sequence of chunks to the stream: emitted payloads in order,
then the final state or the first thrown error (a throw destroys the
stream, so later chunks are not processed). -/
def runChunks : DemuxState → List (List Nat) → List (List Nat) × Except Err DemuxState
  | s, [] => ([], .ok s)
  | s, c :: cs =>
    match transform s c with
    | (ems, .error e) => (ems, .error e)
    | (ems, .ok s') =>
      let r := runChunks s' cs
      (ems ++ r.1, r.2)

/-! ### The vint encoding convention (spec side)

Modelled from the spec: the format's length-prefix convention puts a single
marker bit at position `8 - n` (counting from the least significant bit) of
the first byte of an `n`-byte integer, the remaining `8 - n` low bits of the
first byte and the following `n - 1` bytes carry the value big-endian, so an
`n`-byte vint carries `7 * n` value bits. -/
def vintEncode (n : Nat) (v : Nat) : List Nat :=
  (2 ^ (8 - n) + v / 2 ^ (8 * (n - 1))) ::
    (List.range (n - 1)).map (fun i => v / 2 ^ (8 * (n - 2 - i)) % 256)

/-! ### Concrete streams used as evidence -/

/-- EBML header tag, then a first TrackEntry containing only a TrackNumber
leaf (value 3), then a second TrackEntry containing only a TrackType leaf
(value 2, audio), then a SimpleBlock whose track reference nibble is 3. -/
def crossTrackStream : List Nat :=
  [0x1a, 0x45, 0xdf, 0xa3, 0x80] ++ [0xae, 0x80] ++ [0xd7, 0x81, 0x03]
    ++ [0xae, 0x80] ++ [0x83, 0x81, 0x02]
    ++ [0xa3, 0x85, 0x83, 0x00, 0x00, 0x00, 0x42]

/-- EBML header, one TrackEntry with number 3 and type 2 (audio), then three
SimpleBlocks whose first payload bytes have low nibbles 3, 5 and 3; the
payloads after the 4-byte block headers are `[0xAA, 0xBB]`, `[0xCC]`, `[0xDD]`. -/
def c9Stream : List Nat :=
  [0x1a, 0x45, 0xdf, 0xa3, 0x80] ++ [0xae, 0x80] ++ [0xd7, 0x81, 0x03] ++ [0x83, 0x81, 0x02]
    ++ [0xa3, 0x86, 0x83, 0x00, 0x00, 0x00, 0xAA, 0xBB]
    ++ [0xa3, 0x85, 0x85, 0x00, 0x00, 0x00, 0xCC]
    ++ [0xa3, 0x85, 0x83, 0x00, 0x00, 0x00, 0xDD]

/-- A core whose track was discovered with number 3. -/
def smallTrackCore : Core :=
  { ebmlFound := true, incompleteNumber := some 3, incompleteType := some 2, track := some 3 }

/-- A state whose track was discovered with number 20 (not representable in
the 4-bit block track reference). -/
def bigTrackState : DemuxState :=
  { remainder := none, length := 0, count := 0, skipUntil := none
    core := { ebmlFound := true, incompleteNumber := some 20, incompleteType := some 2
              track := some 20 } }

/-! ### Tokens: the syntactic elements of a well-formed stream (spec side)

The walker consumes the stream as a flat sequence of tag headers and
payloads: a container tag contributes only its ID and size field (the
walker descends right after the header), while childless and unknown tags
contribute ID, size field and payload.  `Tok` is one such element. -/

structure Tok where
  id : List Nat
  sizeBytes : List Nat
  data : List Nat
deriving DecidableEq, Repr

def encodeTok (t : Tok) : List Nat := t.id ++ t.sizeBytes ++ t.data

def encodeToks (ts : List Tok) : List Nat := (ts.map encodeTok).flatten

/-- The size value the demuxer computes for a complete size field `bs`: the
first byte masked by the length prefix, then big-endian accumulation of the
remaining bytes through the JS 32-bit shift (mirrors `expandVint` on a
buffer that starts with `bs`). -/
def sizeValue (bs : List Nat) : Int :=
  expandSteps bs (bs.length - 1) 1
    (jsAnd ((bs.headD 0 : Nat) : Int) (jsShl 1 (8 - (bs.length : Int)) - 1))

/-- Well-formed token: the ID and the size field are vint-shaped (their
first byte determines exactly their own length), the declared size is the
payload length, and container tags carry no payload here (their size value
is unconstrained because the walker never uses it). -/
def WfTok (t : Tok) : Prop :=
  msbScan (t.id.headD 0) + 1 = t.id.length ∧
  msbScan (t.sizeBytes.headD 0) + 1 = t.sizeBytes.length ∧
  (if TAGS t.id = some true then t.data = []
   else sizeValue t.sizeBytes = (t.data.length : Int))

instance (t : Tok) : Decidable (WfTok t) := by
  unfold WfTok
  infer_instance

/-- The token-level effect of processing one complete tag: exactly the
state change and the emission `_readTag` performs once the whole tag is
buffered. -/
def refStep (core : Core) (t : Tok) : Except Err (Core × Option (List Nat)) :=
  if core.ebmlFound = false ∧ t.id ≠ ebmlId then .error .missingHeader
  else
    match TAGS t.id with
    | none => .ok (coreFlag core, none)
    | some true => .ok (coreFlag core, none)
    | some false => leafEffect (coreFlag core) t.id t.data

/-- Reference run: fold `refStep` over a token list, collecting emissions
and stopping at the first error. -/
def refRun (core : Core) : List Tok → List (List Nat) × Except Err Core
  | [] => ([], .ok core)
  | t :: ts =>
    match refStep core t with
    | .error e => ([], .error e)
    | .ok (c', em) =>
      let r := refRun c' ts
      (em.toList ++ r.1, r.2)

/-- A buffer holding `bud` bytes of the encoding of `rest` cannot make
progress: either nothing is pending, or the pending token is incomplete and
is not an unknown tag with a complete header (which would set a skip
target). -/
def StallShape (rest : List Tok) (bud : Nat) : Prop :=
  match rest with
  | [] => bud = 0
  | t :: _ =>
    bud < (encodeTok t).length ∧
    (TAGS t.id = none → bud < t.id.length + t.sizeBytes.length)

/-- The demuxer core `cS` agrees with the reference core `rcore` up to the
header flag, which `_readTag` may set as soon as the pending EBML ID is
fully buffered, before the rest of that tag arrives. -/
def FlagOk (rcore cS : Core) (rest : List Tok) : Prop :=
  cS = rcore ∨
    (rcore.ebmlFound = false ∧ cS = coreFlag rcore ∧
      ∃ t ts, rest = t :: ts ∧ t.id = ebmlId)

/-- Invariant of a demuxer state between chunks, parsing mode: `done`
tokens fully processed, `bud` bytes of the next tokens buffered. -/
def InvP (toks : List Tok) (s : DemuxState) (done : List Tok) (bud : Nat) : Prop :=
  ∃ rest c',
    toks = done ++ rest ∧
    (refRun initState.core done).2 = .ok c' ∧
    StallShape rest bud ∧
    FlagOk c' s.core rest ∧
    s.length = (((encodeToks done).length + bud : Nat) : Int) ∧
    s.count = (((encodeToks done).length : Nat) : Int) ∧
    s.skipUntil = none ∧
    (s.remainder = some ((encodeToks rest).take bud) ∨ (s.remainder = none ∧ bud = 0))

/-- Invariant of a demuxer state between chunks, skipping mode: the unknown
token `u` has its header buffered (`bud` of its bytes so far) and the skip
target is its absolute end. -/
def InvS (toks : List Tok) (s : DemuxState) (done : List Tok) (u : Tok) (bud : Nat) : Prop :=
  ∃ rest' c',
    toks = done ++ u :: rest' ∧
    TAGS u.id = none ∧
    (refRun initState.core (done ++ [u])).2 = .ok c' ∧
    s.core = c' ∧
    u.id.length + u.sizeBytes.length ≤ bud ∧
    bud ≤ (encodeTok u).length ∧
    s.length = (((encodeToks done).length + bud : Nat) : Int) ∧
    s.skipUntil = some ((((encodeToks done).length + (encodeTok u).length : Nat) : Nat) : Int) ∧
    s.count + ((s.remainder.getD []).length : Int) = s.length ∧
    0 ≤ s.count

/-- Whether a token list ends with an unknown tag: when such a list is
buffered flush with the end of the working buffer, the loop breaks out of
that last tag with a skip target instead of consuming it inline. -/
def lastUnknown (toks : List Tok) : Bool :=
  match toks.getLast? with
  | some u => (TAGS u.id).isNone
  | none => false

/-- Where the `_transform` loop comes to rest once every completely
buffered token has been consumed and `suf` bytes of the next pending
tokens `pend` remain: the final core, loop offset and skip target. -/
def tokStall (cF : Core) (oT count : Int) (suf : List Nat) (pend : List Tok) :
    Except Err (Core × Int × Option Int) :=
  match pend with
  | [] => .ok (cF, oT, none)
  | u :: _ =>
    if u.id.length ≤ suf.length then
      if cF.ebmlFound = false ∧ u.id ≠ ebmlId then .error .missingHeader
      else if TAGS u.id = none ∧ u.id.length + u.sizeBytes.length ≤ suf.length then
        .ok (coreFlag cF, oT, some (count + oT + ((encodeTok u).length : Int)))
      else .ok (coreFlag cF, oT, none)
    else .ok (cF, oT, none)

/-- Outcome of one `_transform` call made from an invariant-bearing state:
either it throws with all reference emissions accounted for, or it moves to
a state that again satisfies one of the two invariants one chunk later. -/
def StepOut (toks : List Tok) (done : List Tok) (c : List Nat) (s : DemuxState) : Prop :=
  (∃ ems e, transform s c = (ems, .error e) ∧
     (refRun initState.core done).1 ++ ems = (refRun initState.core toks).1) ∨
  (∃ ems s2 done2,
     transform s c = (ems, .ok s2) ∧
     (refRun initState.core done2).1 = (refRun initState.core done).1 ++ ems ∧
     ((∃ bud2, InvP toks s2 done2 bud2) ∨ (∃ u bud2, InvS toks s2 done2 u bud2)) ∧
     s2.length = s.length + (c.length : Int))

/-! ### Arithmetic facts about the JS operators -/

theorem toUint32_cast_small {x : Int} (h0 : 0 ≤ x) (h : x < 4294967296) :
    (toUint32 x : Int) = x := by
  unfold toUint32; omega

theorem toInt32_small {x : Int} (h0 : 0 ≤ x) (h : x < 2147483648) : toInt32 x = x := by
  have hu : toUint32 x = x.toNat := by unfold toUint32; omega
  unfold toInt32
  rw [hu, if_pos (by omega)]
  omega

theorem jsShl_eight {x : Int} (h0 : 0 ≤ x) (h : x * 256 < 2147483648) :
    jsShl x 8 = x * 256 := by
  have hu : (toUint32 x : Int) = x := toUint32_cast_small h0 (by omega)
  have h8 : (2 : Int) ^ (toUint32 8 % 32) = 256 := by decide
  rw [jsShl, h8, hu]
  exact toInt32_small (by omega) h

theorem jsShl_one_pow {k : Nat} (hk : k ≤ 30) : jsShl 1 (k : Int) = ((2 ^ k : Nat) : Int) := by
  have h1 : toUint32 1 = 1 := by decide
  have h2 : toUint32 (k : Int) % 32 = k := by unfold toUint32; omega
  have hp : (2 : Nat) ^ k ≤ 2 ^ 30 := Nat.pow_le_pow_right (by norm_num) hk
  rw [jsShl, h1, h2]
  have he : (toUint32 1 : Int) * 2 ^ k = ((2 ^ k : Nat) : Int) := by rw [h1]; push_cast; ring
  rw [h1] at he
  rw [he]
  exact toInt32_small (by positivity) (by exact_mod_cast lt_of_le_of_lt hp (by norm_num))

theorem jsAnd_pow_two_sub_one {b k : Nat} (hb : b < 4294967296) (hk : k ≤ 31) :
    jsAnd (b : Int) (((2 ^ k - 1 : Nat) : Int)) = ((b % 2 ^ k : Nat) : Int) := by
  have hM : (2 : Nat) ^ k ≤ 2 ^ 31 := Nat.pow_le_pow_right (by norm_num) hk
  have h1 : toUint32 (b : Int) = b := by unfold toUint32; omega
  have h2 : toUint32 ((2 ^ k - 1 : Nat) : Int) = 2 ^ k - 1 := by unfold toUint32; omega
  have hand : b &&& (2 ^ k - 1) = b % 2 ^ k := Nat.and_pow_two_sub_one_eq_mod b k
  rw [jsAnd, h1, h2, hand]
  exact toInt32_small (by positivity)
    (by exact_mod_cast lt_of_lt_of_le (Nat.mod_lt b (by positivity)) (by norm_num at hM ⊢; omega))

/-- A byte with its most significant set bit at position `k` makes the scan
of `vintLength` stop after `7 - k` iterations. -/
theorem msbScan_two_pow_add {k h : Nat} (hk : k ≤ 7) (hh : h < 2 ^ k) :
    msbScan (2 ^ k + h) = 7 - k := by
  interval_cases k <;> interval_cases h <;> decide

/-! ### The vint round trip (C2) -/

theorem vintEncode_length {n : Nat} (v : Nat) (h1 : 1 ≤ n) : (vintEncode n v).length = n := by
  simp only [vintEncode, List.length_cons, List.length_map, List.length_range]
  omega

theorem jsGet_vintEncode_head (n v : Nat) :
    jsGet (vintEncode n v) 0 = some (2 ^ (8 - n) + v / 2 ^ (8 * (n - 1))) := by
  unfold jsGet vintEncode
  norm_num

theorem jsGet_vintEncode_tail {n v j : Nat} (h1 : 1 ≤ j) (hj : j < n) :
    jsGet (vintEncode n v) (j : Int) = some (v / 2 ^ (8 * (n - 1 - j)) % 256) := by
  obtain ⟨m, rfl⟩ : ∃ m, j = m + 1 := ⟨j - 1, by omega⟩
  unfold jsGet vintEncode
  rw [if_pos (by positivity)]
  have ht : ((m + 1 : Nat) : Int).toNat = m + 1 := by omega
  rw [ht, List.getElem?_cons_succ, List.getElem?_map, List.getElem?_range (by omega)]
  simp only [Option.map_some']
  have hnm : n - 2 - m = n - 1 - (m + 1) := by omega
  rw [hnm]

/-- Loop invariant for decoding the encoding of `v`: entering the iteration
that reads byte `j` with accumulator `v / 2 ^ (8 * (n - j))` ends with `v`. -/
theorem expandSteps_encode {n v : Nat} (h8 : n ≤ 8) (h31 : v < 2147483648) :
    ∀ m j, 1 ≤ j → j + m = n →
      expandSteps (vintEncode n v) m (j : Int) ((v / 2 ^ (8 * (n - j)) : Nat) : Int) = (v : Int)
  | 0, j, hj, hjm => by
    have hnj : n - j = 0 := by omega
    simp only [expandSteps, hnj]
    norm_num
  | m + 1, j, hj, hjm => by
    have hjn : j < n := by omega
    have hbyte : jsGet (vintEncode n v) (j : Int) = some (v / 2 ^ (8 * (n - 1 - j)) % 256) :=
      jsGet_vintEncode_tail hj hjn
    have hmul : v / 2 ^ (8 * (n - j)) * 256 ≤ v := by
      have h256 : (256 : Nat) ≤ 2 ^ (8 * (n - j)) := by
        calc (256 : Nat) = 2 ^ 8 := by norm_num
          _ ≤ 2 ^ (8 * (n - j)) := Nat.pow_le_pow_right (by norm_num) (by omega)
      calc v / 2 ^ (8 * (n - j)) * 256 ≤ v / 256 * 256 := by
            apply Nat.mul_le_mul_right
            exact Nat.div_le_div_left h256 (by norm_num)
        _ ≤ v := Nat.div_mul_le_self v 256
    have hshl : jsShl ((v / 2 ^ (8 * (n - j)) : Nat) : Int) 8
        = ((v / 2 ^ (8 * (n - j)) * 256 : Nat) : Int) := by
      rw [jsShl_eight (by positivity)
        (by exact_mod_cast (by omega : v / 2 ^ (8 * (n - j)) * 256 < 2147483648))]
      push_cast
      ring
    have harith : v / 2 ^ (8 * (n - j)) * 256 + v / 2 ^ (8 * (n - 1 - j)) % 256
        = v / 2 ^ (8 * (n - (j + 1))) := by
      have hd : v / 2 ^ (8 * (n - j)) = v / 2 ^ (8 * (n - 1 - j)) / 256 := by
        rw [Nat.div_div_eq_div_mul]
        congr 1
        have : 8 * (n - j) = 8 * (n - 1 - j) + 8 := by omega
        rw [this, pow_add]
        norm_num
      have hj1 : n - (j + 1) = n - 1 - j := by omega
      rw [hd, hj1]
      omega
    simp only [expandSteps]
    rw [hbyte]
    simp only [Option.getD_some]
    rw [hshl]
    have hsum : ((v / 2 ^ (8 * (n - j)) * 256 : Nat) : Int) + ((v / 2 ^ (8 * (n - 1 - j)) % 256 : Nat) : Int)
        = ((v / 2 ^ (8 * (n - (j + 1))) : Nat) : Int) := by
      push_cast [← harith]
      ring
    rw [hsum]
    have hcast : ((j : Int) + 1) = ((j + 1 : Nat) : Int) := by push_cast; ring
    rw [hcast]
    exact expandSteps_encode h8 h31 m (j + 1) (by omega) (by omega)

/-- C2 (amended): decoding the 1-to-8-byte encoding of `v` with `vintLength`
and then `expandVint` yields `v` again, provided `v < 2 ^ 31`.  The bound is
forced by the 32-bit signed semantics of the JS `<<` in `expandVint`; see
the counterexample at `v = 2 ^ 31`. -/
theorem c2_vint_roundtrip_small (n v : Nat) (hn1 : 1 ≤ n) (hn8 : n ≤ 8)
    (hv : v < 2 ^ (7 * n)) (h31 : v < 2147483648) :
    vintLength (vintEncode n v) 0 = some n ∧
    expandVint (vintEncode n v) 0 (n : Int) = some (v : Int) := by
  have hlen : (vintEncode n v).length = n := vintEncode_length v hn1
  have hhi : v / 2 ^ (8 * (n - 1)) < 2 ^ (8 - n) := by
    rw [Nat.div_lt_iff_lt_mul (by positivity)]
    calc v < 2 ^ (7 * n) := hv
      _ ≤ 2 ^ (8 - n) * 2 ^ (8 * (n - 1)) := by
          rw [← pow_add]
          exact Nat.pow_le_pow_right (by norm_num) (by omega)
  have hscan : msbScan (2 ^ (8 - n) + v / 2 ^ (8 * (n - 1))) + 1 = n := by
    rw [msbScan_two_pow_add (by omega) hhi]
    omega
  have hvl : vintLength (vintEncode n v) 0 = some n := by
    unfold vintLength
    rw [jsGet_vintEncode_head]
    simp only [Option.getD_some]
    rw [hscan, hlen]
    rw [if_neg (by omega)]
  refine ⟨hvl, ?_⟩
  unfold expandVint
  rw [hvl, hlen]
  dsimp only
  rw [if_neg (by omega)]
  have hmask : jsShl 1 (8 - (n : Int)) - 1 = ((2 ^ (8 - n) - 1 : Nat) : Int) := by
    have hc : (8 - (n : Int)) = ((8 - n : Nat) : Int) := by omega
    rw [hc, jsShl_one_pow (by omega)]
    have hone : (1 : Nat) ≤ 2 ^ (8 - n) := Nat.one_le_two_pow
    omega
  rw [jsGet_vintEncode_head]
  simp only [Option.getD_some]
  rw [hmask]
  have hb0 : (2 ^ (8 - n) + v / 2 ^ (8 * (n - 1)) : Nat) < 4294967296 := by
    have h8 : (2 : Nat) ^ (8 - n) ≤ 2 ^ 8 := Nat.pow_le_pow_right (by norm_num) (by omega)
    omega
  have hfv : jsAnd ((2 ^ (8 - n) + v / 2 ^ (8 * (n - 1)) : Nat) : Int)
      ((2 ^ (8 - n) - 1 : Nat) : Int) = ((v / 2 ^ (8 * (n - 1)) : Nat) : Int) := by
    rw [jsAnd_pow_two_sub_one hb0 (by omega)]
    congr 1
    rw [Nat.add_mod_left]
    exact Nat.mod_eq_of_lt hhi
  rw [hfv]
  unfold expandLoop
  have hsteps : ((n : Int) - (0 + 1)).toNat = n - 1 := by omega
  rw [hsteps]
  have hz : ((0 : Int) + 1) = ((1 : Nat) : Int) := by norm_num
  rw [hz]
  have := expandSteps_encode hn8 h31 (n - 1) 1 (by omega) (by omega)
  rw [show (8 * (n - 1)) = (8 * (n - 1)) from rfl] at this
  rw [congrArg some (this)]

/-- C2 (counterexample): the round trip fails as universally stated.  The
value `2 ^ 31` is representable in 5 encoded bytes (it needs 35 value bits),
but the accumulator of `expandVint` passes through the JS 32-bit `<<`, so
decoding returns `-2 ^ 31` instead of `2 ^ 31`. -/
theorem c2_roundtrip_fails_at_two_pow_31 :
    vintEncode 5 2147483648 = [8, 128, 0, 0, 0] ∧
    vintLength (vintEncode 5 2147483648) 0 = some 5 ∧
    expandVint (vintEncode 5 2147483648) 0 5 = some (-2147483648) := by decide

/-- Witness for `c2_vint_roundtrip_small` at `n = 2`, `v = 300`. -/
theorem c2_vint_roundtrip_small_witness :
    vintLength (vintEncode 2 300) 0 = some 2 ∧
    expandVint (vintEncode 2 300) 0 (2 : Int) = some (300 : Int) :=
  c2_vint_roundtrip_small 2 300 (by decide) (by decide) (by decide) (by decide)

/-- C5: the claim says the `IncompleteTrack` accumulator is reset whenever a
track-entry container tag (`'ae'`) starts, so fields from different entries
are never combined.  The code's reset (line 125) is dead: `'ae'` maps to
`true` in `TAGS`, so `_readTag` returns at line 119 for it and never reaches
line 125.  On `crossTrackStream` the number recorded in the first entry is
combined with the type recorded in the second entry, a track with number 3
is promoted, and the following block is emitted, where the claimed behavior
would leave the accumulator `{type = 2}` and fail with the no-audio-track
error on the block. -/
theorem c5_cross_entry_fields_combined :
    (runChunks initState [crossTrackStream]).2 =
      .ok { remainder := some [], length := 22, count := 22, skipUntil := none
            core := { ebmlFound := true, incompleteNumber := some 3, incompleteType := some 2
                      track := some 3 } } ∧
    (runChunks initState [crossTrackStream]).1 = [[0x42]] := ⟨rfl, rfl⟩

/-- C6: the claim says a length field whose marker byte is entirely zero is
a fatal malformed-length error.  The code's `vintLength` silently computes
the length 9 when nine bytes are available (the scan falls through with
`i = 8`, then `i++`), and reports `TOO_SHORT` (which is not an error) when
they are not; no error kind for malformed lengths exists in the source. -/
theorem c6_all_zero_marker_yields_length_nine :
    vintLength [0, 0, 0, 0, 0, 0, 0, 0, 0] 0 = some 9 ∧
    vintLength [0, 0, 0, 0, 0, 0, 0, 0] 0 = none := by decide

/-- C9: on a stream with a discovered track of number 3 and three blocks
with low-nibble references 3, 5 and 3, exactly the first and the third
blocks are emitted, each with the first 4 payload bytes removed, and no
error occurs. -/
theorem c9_two_of_three_blocks_emitted :
    (runChunks initState [c9Stream]).1 = [[0xAA, 0xBB], [0xDD]] ∧
    (runChunks initState [c9Stream]).2.isOk = true := by decide

/-! ### C10: the 4-bit block track reference -/

theorem jsAnd_fifteen_bounds (x : Int) : 0 ≤ jsAnd x 15 ∧ jsAnd x 15 < 16 := by
  have h15 : toUint32 15 = 15 := by decide
  have hand : toUint32 x &&& 15 = toUint32 x % 16 := by
    have h := Nat.and_pow_two_sub_one_eq_mod (toUint32 x) 4
    norm_num at h
    exact h
  rw [jsAnd, h15, hand]
  have hlt : toUint32 x % 16 < 16 := Nat.mod_lt _ (by norm_num)
  rw [toInt32_small (by positivity) (by exact_mod_cast lt_of_lt_of_le hlt (by norm_num))]
  constructor
  · positivity
  · exact_mod_cast hlt

theorem discoverTrack_of_track_some {core0 : Core} {id data : List Nat} {n : Nat}
    (h : core0.track = some n) : discoverTrack core0 id data = core0 := by
  unfold discoverTrack
  rw [if_neg (by simp [h])]

theorem leafEffect_emit_bound {core0 : Core} {id data : List Nat} {c1 : Core} {u : List Nat}
    (h : leafEffect core0 id data = .ok (c1, some u)) :
    ∃ m, c1.track = some m ∧ m < 16 := by
  have hb := jsAnd_fifteen_bounds (((jsGet data 0).getD 0 : Nat) : Int)
  simp only [leafEffect] at h
  by_cases h63 : id = [0x63, 0xa2]
  · rw [if_pos h63] at h
    by_cases hop : jsSlice data 0 8 ≠ OPUS_HEAD
    · rw [if_pos hop] at h; simp at h
    · rw [if_neg hop] at h; simp at h
  · rw [if_neg h63] at h
    by_cases ha3 : id = [0xa3]
    · rw [if_pos ha3] at h
      cases htr : (discoverTrack core0 id data).track with
      | none => rw [htr] at h; simp at h
      | some m =>
        rw [htr] at h
        dsimp only at h
        by_cases hc : jsAnd (((jsGet data 0).getD 0 : Nat) : Int) 15 = (m : Int)
        · rw [if_pos hc] at h
          simp only [Except.ok.injEq, Prod.mk.injEq] at h
          refine ⟨m, ?_, ?_⟩
          · rw [← h.1, htr]
          · have hm : (m : Int) < 16 := hc ▸ hb.2
            exact_mod_cast hm
        · rw [if_neg hc] at h; simp at h
    · rw [if_neg ha3] at h; simp at h

theorem leafEffect_of_track_some {core0 : Core} {id data : List Nat} {n : Nat}
    (h : core0.track = some n) :
    leafEffect core0 id data = .error .unsupportedCodec ∨
      ∃ em, leafEffect core0 id data = .ok (core0, em) ∧ (16 ≤ n → em = none) := by
  have hd := @discoverTrack_of_track_some _ id data _ h
  have hb := jsAnd_fifteen_bounds (((jsGet data 0).getD 0 : Nat) : Int)
  simp only [leafEffect, hd]
  by_cases h63 : id = [0x63, 0xa2]
  · rw [if_pos h63]
    by_cases hop : jsSlice data 0 8 ≠ OPUS_HEAD
    · rw [if_pos hop]; left; rfl
    · rw [if_neg hop]; right; exact ⟨none, rfl, fun _ => rfl⟩
  · rw [if_neg h63]
    by_cases ha3 : id = [0xa3]
    · rw [if_pos ha3, h]
      dsimp only
      by_cases hc : jsAnd (((jsGet data 0).getD 0 : Nat) : Int) 15 = (n : Int)
      · rw [if_pos hc]
        right
        refine ⟨_, rfl, fun h16 => ?_⟩
        exfalso
        have hn : (n : Int) < 16 := hc ▸ hb.2
        have h16' : (16 : Int) ≤ (n : Int) := by exact_mod_cast h16
        omega
      · rw [if_neg hc]; right; exact ⟨none, rfl, fun _ => rfl⟩
    · rw [if_neg ha3]; right; exact ⟨none, rfl, fun _ => rfl⟩

theorem exceptMap_eq_ok {ε α β : Type} {f : α → β} {x : Except ε α} {y : β}
    (h : Except.map f x = .ok y) : ∃ r, x = .ok r ∧ f r = y := by
  cases x with
  | error e => simp [Except.map] at h
  | ok r => exact ⟨r, rfl, by simpa [Except.map] using h⟩

theorem readTag_tooShort_inv {core : Core} {chunk : List Nat} {o count : Int} {c' : Core}
    (h : readTag core chunk o count = .ok (.tooShort c')) :
    c' = core ∨ c' = coreFlag core := by
  unfold readTag at h
  repeat' split at h
  all_goals try (simp at h)
  all_goals first
    | exact Or.inl h.symm
    | exact Or.inr h.symm
    | (obtain ⟨res, -, hf⟩ := exceptMap_eq_ok h; exact absurd hf (by simp))

theorem readTag_step_inv {core : Core} {chunk : List Nat} {o count : Int}
    {c' : Core} {o' : Int} {sk : Option Int} {em : Option (List Nat)}
    (h : readTag core chunk o count = .ok (.step c' o' sk em)) :
    (c' = coreFlag core ∧ em = none) ∨
      ∃ id data, leafEffect (coreFlag core) id data = .ok (c', em) := by
  unfold readTag at h
  repeat' split at h
  all_goals try (simp at h)
  all_goals first
    | exact Or.inl ⟨h.1.symm, h.2.2.2.symm⟩
    | (obtain ⟨res, heff, hf⟩ := exceptMap_eq_ok h
       simp only [TagResult.step.injEq] at hf
       rw [show res = (c', em) from Prod.ext hf.1 hf.2.2.2] at heff
       exact Or.inr ⟨_, _, heff⟩)

theorem readTag_emit_bound {core : Core} {chunk : List Nat} {o count : Int}
    {c' : Core} {o' : Int} {sk : Option Int} {u : List Nat}
    (h : readTag core chunk o count = .ok (.step c' o' sk (some u))) :
    ∃ m, c'.track = some m ∧ m < 16 := by
  rcases readTag_step_inv h with ⟨-, hem⟩ | ⟨id, data, heff⟩
  · exact absurd hem (by simp)
  · exact leafEffect_emit_bound heff

theorem coreFlag_track (core : Core) : (coreFlag core).track = core.track := by
  unfold coreFlag
  split <;> rfl

/-- `_readTag` from a state with a discovered track: the track is immutable,
and once the tracked number is 16 or more, nothing is ever pushed. -/
theorem readTag_track_some {core : Core} {chunk : List Nat} {o count : Int} {n : Nat}
    (h : core.track = some n) :
    (∀ c', readTag core chunk o count = .ok (.tooShort c') → c'.track = some n) ∧
    (∀ c' o' sk em, readTag core chunk o count = .ok (.step c' o' sk em) →
      c'.track = some n ∧ (16 ≤ n → em = none)) := by
  have hcf : (coreFlag core).track = some n := (coreFlag_track core).trans h
  constructor
  · intro c' hr
    rcases readTag_tooShort_inv hr with rfl | rfl
    · exact h
    · exact hcf
  · intro c' o' sk em hr
    rcases readTag_step_inv hr with ⟨rfl, rfl⟩ | ⟨id, data, heff⟩
    · exact ⟨hcf, fun _ => rfl⟩
    · rcases @leafEffect_of_track_some _ id data _ hcf with hcase | ⟨em0, hok, hbig⟩
      · rw [hcase] at heff; exact absurd heff (by simp)
      · rw [hok] at heff
        simp only [Except.ok.injEq, Prod.mk.injEq] at heff
        refine ⟨?_, fun h16 => ?_⟩
        · rw [← heff.1]; exact hcf
        · rw [← heff.2]; exact hbig h16

/-! ### Small facts about slices and `vintLength` -/

theorem getElem?_zero_getD (b : List Nat) : (b[0]?).getD 0 = b.headD 0 := by
  cases b <;> simp

theorem headD_append_of_ne {p : List Nat} (q : List Nat) (hp : p ≠ []) :
    ((p ++ q).headD 0) = p.headD 0 := by
  cases p with
  | nil => exact absurd rfl hp
  | cons a l => rfl

theorem jsGet_zero (b : List Nat) : jsGet b 0 = b[0]? := by
  unfold jsGet
  rw [if_pos (le_refl 0)]
  rfl

theorem vintLength_zero_none {b : List Nat} (h : b.length < msbScan (b.headD 0) + 1) :
    vintLength b 0 = none := by
  unfold vintLength
  dsimp only
  rw [jsGet_zero, getElem?_zero_getD]
  rw [if_pos (by push_cast; omega)]

theorem vintLength_zero_some {b : List Nat} (h : msbScan (b.headD 0) + 1 ≤ b.length) :
    vintLength b 0 = some (msbScan (b.headD 0) + 1) := by
  unfold vintLength
  dsimp only
  rw [jsGet_zero, getElem?_zero_getD]
  rw [if_neg (by push_cast; omega)]

theorem jsSlice_zero_nat {b : List Nat} {n : Nat} (h : n ≤ b.length) :
    jsSlice b 0 (n : Int) = b.take n := by
  simp only [jsSlice]
  rw [if_neg (by omega : ¬ (0 : Int) < 0)]
  rw [if_neg (by exact_mod_cast Int.not_lt.mpr (Int.natCast_nonneg n) : ¬ (n : Int) < 0)]
  rw [min_eq_left (by positivity : (0 : Int) ≤ (b.length : Int))]
  rw [min_eq_left (by exact_mod_cast h : (n : Int) ≤ (b.length : Int))]
  rcases Nat.eq_zero_or_pos n with hn | hn
  · subst hn
    rw [if_neg (by omega)]
    simp
  · rw [if_pos (by exact_mod_cast hn : (0 : Int) < (n : Int))]
    simp

theorem jsSlice_zero_length (b : List Nat) : jsSlice b 0 ((b.length : Nat) : Int) = b := by
  rw [jsSlice_zero_nat (le_refl _)]
  exact List.take_length ..

theorem exceptMap_eq_error {ε α β : Type} {f : α → β} {x : Except ε α} {e : ε}
    (h : Except.map f x = .error e) : x = .error e := by
  cases x with
  | error e2 => simpa [Except.map] using h
  | ok r => simp [Except.map] at h

/-! ### Flag and error-kind invariants of one `_readTag` -/

theorem coreFlag_flag (core : Core) : (coreFlag core).ebmlFound = true := by
  unfold coreFlag
  split <;> simp_all

theorem discoverTrack_ebmlFound (core0 : Core) (id data : List Nat) :
    (discoverTrack core0 id data).ebmlFound = core0.ebmlFound := by
  simp only [discoverTrack]
  repeat' split
  all_goals rfl

theorem leafEffect_ok_core {core0 : Core} {id data : List Nat} {c1 : Core} {em : Option (List Nat)}
    (h : leafEffect core0 id data = .ok (c1, em)) : c1 = discoverTrack core0 id data := by
  simp only [leafEffect] at h
  by_cases h63 : id = [0x63, 0xa2]
  · rw [if_pos h63] at h
    by_cases hop : jsSlice data 0 8 ≠ OPUS_HEAD
    · rw [if_pos hop] at h; simp at h
    · rw [if_neg hop] at h
      simp only [Except.ok.injEq, Prod.mk.injEq] at h
      exact h.1.symm
  · rw [if_neg h63] at h
    by_cases ha3 : id = [0xa3]
    · rw [if_pos ha3] at h
      cases htr : (discoverTrack core0 id data).track with
      | none => rw [htr] at h; simp at h
      | some m =>
        rw [htr] at h
        dsimp only at h
        by_cases hc : jsAnd (((jsGet data 0).getD 0 : Nat) : Int) 15 = (m : Int)
        · rw [if_pos hc] at h
          simp only [Except.ok.injEq, Prod.mk.injEq] at h
          exact h.1.symm
        · rw [if_neg hc] at h
          simp only [Except.ok.injEq, Prod.mk.injEq] at h
          exact h.1.symm
    · rw [if_neg ha3] at h
      simp only [Except.ok.injEq, Prod.mk.injEq] at h
      exact h.1.symm

theorem leafEffect_error_kind {core0 : Core} {id data : List Nat} {e : Err}
    (h : leafEffect core0 id data = .error e) :
    e = .unsupportedCodec ∨ e = .noAudioTrack := by
  simp only [leafEffect] at h
  by_cases h63 : id = [0x63, 0xa2]
  · rw [if_pos h63] at h
    by_cases hop : jsSlice data 0 8 ≠ OPUS_HEAD
    · rw [if_pos hop] at h
      simp only [Except.error.injEq] at h
      exact Or.inl h.symm
    · rw [if_neg hop] at h; simp at h
  · rw [if_neg h63] at h
    by_cases ha3 : id = [0xa3]
    · rw [if_pos ha3] at h
      cases htr : (discoverTrack core0 id data).track with
      | none =>
        rw [htr] at h
        dsimp only at h
        simp only [Except.error.injEq] at h
        exact Or.inr h.symm
      | some m =>
        rw [htr] at h
        dsimp only at h
        by_cases hc : jsAnd (((jsGet data 0).getD 0 : Nat) : Int) 15 = (m : Int)
        · rw [if_pos hc] at h; simp at h
        · rw [if_neg hc] at h; simp at h
    · rw [if_neg ha3] at h; simp at h

theorem readTag_error_kind {core : Core} {chunk : List Nat} {o count : Int} {e : Err}
    (hflag : core.ebmlFound = true) (h : readTag core chunk o count = .error e) :
    e ≠ .missingHeader := by
  unfold readTag at h
  repeat' split at h
  all_goals try (simp at h)
  all_goals first
    | (rename_i hgate; rw [hflag] at hgate; exact absurd hgate.1 (by simp))
    | (rw [← h]; simp)
    | (rcases leafEffect_error_kind (exceptMap_eq_error h) with rfl | rfl <;> simp)

theorem readTag_flag_true {core : Core} {chunk : List Nat} {o count : Int}
    (hflag : core.ebmlFound = true) :
    (∀ c', readTag core chunk o count = .ok (.tooShort c') → c'.ebmlFound = true) ∧
    (∀ c' o' sk em, readTag core chunk o count = .ok (.step c' o' sk em) →
      c'.ebmlFound = true) := by
  constructor
  · intro c' h
    rcases readTag_tooShort_inv h with rfl | rfl
    · exact hflag
    · exact coreFlag_flag core
  · intro c' o' sk em h
    rcases readTag_step_inv h with ⟨rfl, -⟩ | ⟨id, data, heff⟩
    · exact coreFlag_flag core
    · have hc := leafEffect_ok_core heff
      rw [hc, discoverTrack_ebmlFound]
      exact coreFlag_flag core

/-! ### The header gate (C4) -/

theorem vintLength_zero_inv {b : List Nat} {n : Nat} (h : vintLength b 0 = some n) :
    msbScan (b.headD 0) + 1 = n ∧ n ≤ b.length := by
  unfold vintLength at h
  dsimp only at h
  rw [jsGet_zero, getElem?_zero_getD] at h
  by_cases hc : (0 : Int) + ((msbScan (b.headD 0) + 1 : Nat) : Int) > (b.length : Int)
  · rw [if_pos hc] at h; simp at h
  · rw [if_neg hc] at h
    simp only [Option.some.injEq] at h
    refine ⟨h, ?_⟩
    rw [← h]
    push_cast at hc
    omega

theorem parseLoop_no_missing :
    ∀ fuel core chunk o count, core.ebmlFound = true →
      ((parseLoop fuel core chunk o count).2 ≠ .error .missingHeader) ∧
      (∀ c' oF skF, (parseLoop fuel core chunk o count).2 = .ok (c', oF, skF) →
        c'.ebmlFound = true)
  | 0, core, chunk, o, count, h => by simp [parseLoop]
  | fuel + 1, core, chunk, o, count, h => by
    simp only [parseLoop]
    cases hr : readTag core chunk o count with
    | error e =>
      refine ⟨?_, fun c' oF skF hok => by simp at hok⟩
      intro hc
      have he : e = .missingHeader := by simpa using hc
      exact (readTag_error_kind h hr) he
    | ok tr =>
      cases tr with
      | tooShort c' =>
        have hc := (readTag_flag_true h).1 c' hr
        exact ⟨by simp, fun c2 oF skF hok => by
          simp only [Except.ok.injEq, Prod.mk.injEq] at hok
          rw [← hok.1]
          exact hc⟩
      | step c' o' sk em =>
        have hc := (readTag_flag_true h).2 c' o' sk em hr
        dsimp only
        by_cases hsk : jsTruthyOpt sk = true
        · rw [if_pos hsk]
          exact ⟨by simp, fun c2 oF skF hok => by
            simp only [Except.ok.injEq, Prod.mk.injEq] at hok
            rw [← hok.1]
            exact hc⟩
        · rw [if_neg hsk]
          by_cases ho : o' ≠ 0
          · rw [if_pos ho]
            have ih := parseLoop_no_missing fuel c' chunk o' count hc
            exact ⟨ih.1, ih.2⟩
          · rw [if_neg ho]
            exact ⟨by simp, fun c2 oF skF hok => by
              simp only [Except.ok.injEq, Prod.mk.injEq] at hok
              rw [← hok.1]
              exact hc⟩

theorem transformLoop_no_missing (core : Core) (chunk : List Nat)
    (o0 count length1 : Int) (skip0 : Option Int) (h : core.ebmlFound = true) :
    ((transformLoop core chunk o0 count length1 skip0).2 ≠ .error .missingHeader) ∧
    (∀ s', (transformLoop core chunk o0 count length1 skip0).2 = .ok s' →
      s'.core.ebmlFound = true) := by
  unfold transformLoop
  have hp := parseLoop_no_missing (chunk.length + 1) core chunk o0 count h
  cases hres : parseLoop (chunk.length + 1) core chunk o0 count with
  | mk ems r =>
    rw [hres] at hp
    cases r with
    | error e =>
      exact ⟨by simpa using hp.1, fun s' hok => by simp at hok⟩
    | ok v =>
      obtain ⟨c', oF, skF⟩ := v
      refine ⟨by simp, ?_⟩
      intro s' hok
      simp only [Except.ok.injEq] at hok
      rw [← hok]
      exact hp.2 c' oF skF rfl

theorem transform_no_missing (s : DemuxState) (c : List Nat) (h : s.core.ebmlFound = true) :
    ((transform s c).2 ≠ .error .missingHeader) ∧
    (∀ s', (transform s c).2 = .ok s' → s'.core.ebmlFound = true) := by
  unfold transform
  cases hsk : s.skipUntil with
  | none => exact transformLoop_no_missing _ _ _ _ _ _ h
  | some t =>
    dsimp only
    by_cases ht : t ≠ 0
    · rw [if_pos ht]
      by_cases hl : s.length + (c.length : Int) > t
      · rw [if_pos hl]
        exact transformLoop_no_missing _ _ _ _ _ _ h
      · rw [if_neg hl]
        exact ⟨by simp, fun s' hok => by
          simp only [Except.ok.injEq] at hok
          rw [← hok]
          exact h⟩
    · rw [if_neg ht]
      exact transformLoop_no_missing _ _ _ _ _ _ h

theorem runChunks_no_missing :
    ∀ (cs : List (List Nat)) (s : DemuxState), s.core.ebmlFound = true →
      (runChunks s cs).2 ≠ .error .missingHeader
  | [], s, h => by simp [runChunks]
  | c :: cs, s, h => by
    simp only [runChunks]
    have ht := transform_no_missing s c h
    cases htr : transform s c with
    | mk ems r =>
      rw [htr] at ht
      cases r with
      | error e => exact ht.1
      | ok s' =>
        have hs' := ht.2 s' rfl
        exact runChunks_no_missing cs s' hs'

theorem transform_stall {p c : List Nat} (core : Core) (len0 cnt : Int)
    (hshort : (p ++ c).length < msbScan ((p ++ c).headD 0) + 1) :
    transform ⟨some p, len0, cnt, none, core⟩ c =
      ([], .ok ⟨some (p ++ c), len0 + (c.length : Int), cnt, none, core⟩) := by
  have hv : vintLength (p ++ c) 0 = none := vintLength_zero_none hshort
  have hrt : readTag core (p ++ c) 0 cnt = .ok (.tooShort core) := by
    unfold readTag readEBMLId
    rw [hv]
  unfold transform
  dsimp only
  unfold transformLoop
  simp only [parseLoop, hrt]
  rw [jsSlice_zero_length]
  norm_num

theorem c4_bad_header_aux {n : Nat} :
    ∀ (cs : List (List Nat)) (p : List Nat) (len0 cnt : Int),
      p.length < n →
      msbScan ((p ++ cs.flatten).headD 0) + 1 = n →
      n ≤ (p ++ cs.flatten).length →
      (p ++ cs.flatten).take n ≠ ebmlId →
      runChunks ⟨some p, len0, cnt, none, initState.core⟩ cs = ([], .error .missingHeader)
  | [], p, len0, cnt, hp, hscan, hlen, hid => by
    exfalso
    simp only [List.flatten_nil, List.append_nil] at hlen
    omega
  | c :: cs, p, len0, cnt, hp, hscan, hlen, hid => by
    have hS : p ++ (c :: cs).flatten = (p ++ c) ++ cs.flatten := by
      simp [List.flatten_cons, List.append_assoc]
    rw [hS] at hscan hlen hid
    by_cases hcase : (p ++ c).length < n
    · have hshort : (p ++ c).length < msbScan ((p ++ c).headD 0) + 1 := by
        by_cases hnil : p ++ c = []
        · rw [hnil]
          simp [msbScan]
        · rw [headD_append_of_ne cs.flatten hnil] at hscan
          omega
      simp only [runChunks]
      rw [transform_stall initState.core len0 cnt hshort]
      dsimp only
      have ih := c4_bad_header_aux cs (p ++ c) (len0 + (c.length : Int)) cnt hcase hscan hlen hid
      rw [ih]
      rfl
    · push_neg at hcase
      have hwbnil : p ++ c ≠ [] := by
        intro hh
        rw [hh] at hcase
        simp at hcase
        omega
      have hmsb : msbScan ((p ++ c).headD 0) + 1 = n := by
        rw [headD_append_of_ne cs.flatten hwbnil] at hscan
        exact hscan
      have hv : vintLength (p ++ c) 0 = some n := by
        have := vintLength_zero_some (b := p ++ c) (by omega)
        rw [hmsb] at this
        exact this
      have hidwb : jsSlice (p ++ c) 0 (n : Int) ≠ ebmlId := by
        rw [jsSlice_zero_nat hcase]
        intro hcontra
        exact hid (by rw [List.take_append_of_le_length hcase]; exact hcontra)
      have hrt : readTag initState.core (p ++ c) 0 cnt = .error .missingHeader := by
        unfold readTag readEBMLId
        rw [hv]
        dsimp only
        simp only [zero_add]
        rw [if_pos ⟨rfl, hidwb⟩]
      simp only [runChunks]
      unfold transform
      dsimp only
      unfold transformLoop
      simp only [parseLoop, hrt]

theorem transform_initState_remainder (c : List Nat) :
    transform initState c = transform ⟨some [], 0, 0, none, initState.core⟩ c := by
  show transform ⟨none, 0, 0, none, initState.core⟩ c = _
  unfold transform
  dsimp only
  rw [List.nil_append]

theorem runChunks_initState_cons (c : List Nat) (cs : List (List Nat)) :
    runChunks initState (c :: cs) = runChunks ⟨some [], 0, 0, none, initState.core⟩ (c :: cs) := by
  simp only [runChunks, transform_initState_remainder]

/-- C4: a stream whose first complete tag ID is not the EBML header ID
(`1a45dfa3`) fails with the missing-header error and emits nothing, for any
chunking of the logical stream; reading a first tag whose ID is the EBML
header ID sets the `_ebmlFound` gate in the resulting core; and from any
state whose gate is set, no later chunk sequence can ever raise the
missing-header error. -/
theorem c4_header_gate :
    (∀ (cs : List (List Nat)) (n : Nat),
        vintLength cs.flatten 0 = some n →
        cs.flatten.take n ≠ ebmlId →
        runChunks initState cs = ([], .error .missingHeader)) ∧
    (∀ (c : List Nat) (n : Nat) (r : TagResult),
        vintLength c 0 = some n →
        c.take n = ebmlId →
        readTag initState.core c 0 0 = .ok r →
        r.resCore.ebmlFound = true) ∧
    (∀ (s : DemuxState) (cs : List (List Nat)),
        s.core.ebmlFound = true →
        (runChunks s cs).2 ≠ .error .missingHeader) := by
  refine ⟨?_, ?_, ?_⟩
  · intro cs n hv hid
    obtain ⟨hscan, hlen⟩ := vintLength_zero_inv hv
    cases cs with
    | nil =>
      rw [List.flatten_nil] at hv
      rw [show vintLength [] 0 = none from by decide] at hv
      cases hv
    | cons c cs' =>
      rw [runChunks_initState_cons]
      refine c4_bad_header_aux (n := n) (c :: cs') [] 0 0
        (by simp only [List.length_nil]; omega) ?_ ?_ ?_
      · simpa using hscan
      · simpa using hlen
      · simpa using hid
  · intro c n r hv hid hr
    obtain ⟨hscan, hlen⟩ := vintLength_zero_inv hv
    have hsl : jsSlice c 0 ((0 : Int) + (n : Int)) = ebmlId := by
      rw [zero_add, jsSlice_zero_nat hlen]
      exact hid
    unfold readTag readEBMLId at hr
    rw [hv] at hr
    dsimp only at hr
    rw [hsl] at hr
    rw [if_neg (by simp)] at hr
    cases hsz : readTagDataSize c ((0 : Int) + (n : Int)) with
    | none =>
      rw [hsz] at hr
      dsimp only at hr
      simp only [Except.ok.injEq] at hr
      rw [← hr]
      exact coreFlag_flag _
    | some v =>
      obtain ⟨o2, dlo⟩ := v
      rw [hsz] at hr
      dsimp only at hr
      cases dlo with
      | none => simp at hr
      | some dl =>
        dsimp only at hr
        rw [show TAGS ebmlId = some true from rfl] at hr
        dsimp only at hr
        simp only [Except.ok.injEq] at hr
        rw [← hr]
        exact coreFlag_flag _
  · intro s cs h
    exact runChunks_no_missing cs s h

/-- Witness for `c4_header_gate`: an unknown first tag errors and emits
nothing; the four header-ID bytes set the gate; a gate-set state never
raises the missing-header error. -/
theorem c4_header_gate_witness :
    runChunks initState [[0xec, 0x80]] = ([], .error .missingHeader) ∧
    (TagResult.tooShort
        { ebmlFound := true, incompleteNumber := none, incompleteType := none
          track := none }).resCore.ebmlFound = true ∧
    (runChunks bigTrackState [[0x11]]).2 ≠ .error .missingHeader :=
  ⟨c4_header_gate.1 [[0xec, 0x80]] 1 (by decide) (by decide),
   c4_header_gate.2.1 [0x1a, 0x45, 0xdf, 0xa3] 4 _ (by decide) (by decide) rfl,
   c4_header_gate.2.2 bigTrackState [[0x11]] rfl⟩

/-- The `_transform` loop from a state with a discovered track number of 16
or more: nothing is pushed and the track survives unchanged. -/
theorem parseLoop_track_big {n : Nat} (h16 : 16 ≤ n) :
    ∀ fuel core chunk o count, core.track = some n →
      (parseLoop fuel core chunk o count).1 = [] ∧
      ∀ c' oF skF, (parseLoop fuel core chunk o count).2 = .ok (c', oF, skF) →
        c'.track = some n
  | 0, core, chunk, o, count, h => by simp [parseLoop]
  | fuel + 1, core, chunk, o, count, h => by
    simp only [parseLoop]
    cases hr : readTag core chunk o count with
    | error e => exact ⟨rfl, fun c2 oF skF hok => by simp at hok⟩
    | ok tr =>
      cases tr with
      | tooShort c' =>
        have hc := (readTag_track_some h).1 c' hr
        exact ⟨rfl, fun c2 oF skF hok => by
          simp only [Except.ok.injEq, Prod.mk.injEq] at hok
          rw [← hok.1]
          exact hc⟩
      | step c' o' sk em =>
        have hst := (readTag_track_some h).2 c' o' sk em hr
        have hem : em = none := hst.2 h16
        subst hem
        dsimp only
        by_cases hsk : jsTruthyOpt sk = true
        · rw [if_pos hsk]
          exact ⟨rfl, fun c2 oF skF hok => by
            simp only [Except.ok.injEq, Prod.mk.injEq] at hok
            rw [← hok.1]
            exact hst.1⟩
        · rw [if_neg hsk]
          by_cases ho : o' ≠ 0
          · rw [if_pos ho]
            have ih := parseLoop_track_big h16 fuel c' chunk o' count hst.1
            exact ⟨ih.1, ih.2⟩
          · rw [if_neg ho]
            exact ⟨rfl, fun c2 oF skF hok => by
              simp only [Except.ok.injEq, Prod.mk.injEq] at hok
              rw [← hok.1]
              exact hst.1⟩

theorem transformLoop_track_big {n : Nat} (h16 : 16 ≤ n) (core : Core) (chunk : List Nat)
    (o0 count length1 : Int) (skip0 : Option Int) (h : core.track = some n) :
    (transformLoop core chunk o0 count length1 skip0).1 = [] ∧
    ∀ s', (transformLoop core chunk o0 count length1 skip0).2 = .ok s' →
      s'.core.track = some n := by
  unfold transformLoop
  have hp := parseLoop_track_big h16 (chunk.length + 1) core chunk o0 count h
  cases hres : parseLoop (chunk.length + 1) core chunk o0 count with
  | mk ems r =>
    rw [hres] at hp
    cases r with
    | error e => exact ⟨hp.1, fun s' hok => by simp at hok⟩
    | ok v =>
      obtain ⟨c', oF, skF⟩ := v
      refine ⟨hp.1, ?_⟩
      intro s' hok
      simp only [Except.ok.injEq] at hok
      rw [← hok]
      exact hp.2 c' oF skF rfl

theorem transform_track_big {n : Nat} (h16 : 16 ≤ n) (s : DemuxState) (c : List Nat)
    (h : s.core.track = some n) :
    (transform s c).1 = [] ∧
    ∀ s', (transform s c).2 = .ok s' → s'.core.track = some n := by
  unfold transform
  cases hsk : s.skipUntil with
  | none => exact transformLoop_track_big h16 _ _ _ _ _ _ h
  | some t =>
    dsimp only
    by_cases ht : t ≠ 0
    · rw [if_pos ht]
      by_cases hl : s.length + (c.length : Int) > t
      · rw [if_pos hl]
        exact transformLoop_track_big h16 _ _ _ _ _ _ h
      · rw [if_neg hl]
        exact ⟨rfl, fun s' hok => by
          simp only [Except.ok.injEq] at hok
          rw [← hok]
          exact h⟩
    · rw [if_neg ht]
      exact transformLoop_track_big h16 _ _ _ _ _ _ h

theorem runChunks_track_big {n : Nat} (h16 : 16 ≤ n) :
    ∀ cs s, s.core.track = some n → (runChunks s cs).1 = []
  | [], s, h => rfl
  | c :: cs, s, h => by
    simp only [runChunks]
    have ht := transform_track_big h16 s c h
    cases htr : transform s c with
    | mk ems r =>
      rw [htr] at ht
      cases r with
      | error e => exact ht.1
      | ok s' =>
        have hs' := ht.2 s' rfl
        have ih := runChunks_track_big h16 cs s' hs'
        dsimp only
        rw [show ems = [] from ht.1, ih]
        rfl

/-- C10: a payload unit is pushed only when the processing state holds a
discovered track whose number fits in 4 bits, and a parser whose discovered
track number is 16 or more never emits anything on any sequence of chunks. -/
theorem c10_emission_needs_nibble_track :
    (∀ core chunk o count c' o' sk u,
        readTag core chunk o count = .ok (.step c' o' sk (some u)) →
        ∃ m, c'.track = some m ∧ m < 16) ∧
    (∀ n, 16 ≤ n → ∀ cs s, s.core.track = some n → (runChunks s cs).1 = []) :=
  ⟨fun _ _ _ _ _ _ _ _ h => readTag_emit_bound h,
   fun _ h16 cs s h => runChunks_track_big h16 cs s h⟩

/-- Witness for `c10_emission_needs_nibble_track`: a concrete emitting
`_readTag` call with track number 3, and a concrete no-emission run with
track number 20. -/
theorem c10_emission_needs_nibble_track_witness :
    (∃ m, smallTrackCore.track = some m ∧ m < 16) ∧
    (runChunks bigTrackState [[0xa3, 0x85, 0x84, 0x00, 0x00, 0x00, 0x99]]).1 = [] :=
  ⟨c10_emission_needs_nibble_track.1 smallTrackCore [0xa3, 0x85, 0x83, 0x00, 0x00, 0x00, 0x09]
      0 0 smallTrackCore 7 none [0x09] rfl,
   c10_emission_needs_nibble_track.2 20 (by decide) _ bigTrackState rfl⟩

/-! ### Reading a buffer through a known suffix (for the token lemmas) -/

theorem jsGet_suffix {chunk suf : List Nat} {o : Int} (ho : 0 ≤ o)
    (hd : List.drop o.toNat chunk = suf) (k : Nat) :
    jsGet chunk (o + (k : Int)) = suf[k]? := by
  unfold jsGet
  rw [if_pos (by omega)]
  have ht : (o + (k : Int)).toNat = o.toNat + k := by omega
  rw [ht, ← List.getElem?_drop, hd]

theorem length_suffix {chunk suf : List Nat} {o : Int} (ho : 0 ≤ o)
    (hlen : o.toNat ≤ chunk.length) (hd : List.drop o.toNat chunk = suf) :
    chunk.length = o.toNat + suf.length := by
  have h := List.length_drop o.toNat chunk
  rw [hd] at h
  omega

theorem jsSlice_suffix {chunk suf : List Nat} {o : Int} (ho : 0 ≤ o)
    (hlen : o.toNat ≤ chunk.length) (hd : List.drop o.toNat chunk = suf)
    {a b : Nat} (hab : a ≤ b) (hb : b ≤ suf.length) :
    jsSlice chunk (o + (a : Int)) (o + (b : Int)) = (suf.take b).drop a := by
  have hclen : chunk.length = o.toNat + suf.length := length_suffix ho hlen hd
  have hchunk : chunk = chunk.take o.toNat ++ suf := by
    conv_lhs => rw [← List.take_append_drop o.toNat chunk]
    rw [hd]
  have hpre : (chunk.take o.toNat).length = o.toNat := by
    rw [List.length_take]
    omega
  simp only [jsSlice]
  rw [if_neg (by omega : ¬ (o + (a : Int)) < 0)]
  rw [if_neg (by omega : ¬ (o + (b : Int)) < 0)]
  rw [min_eq_left (by omega : (o + (a : Int)) ≤ (chunk.length : Int))]
  rw [min_eq_left (by omega : (o + (b : Int)) ≤ (chunk.length : Int))]
  by_cases hlt : a < b
  · rw [if_pos (by omega : o + (a : Int) < o + (b : Int))]
    have h1 : (o + (b : Int)).toNat = (chunk.take o.toNat).length + b := by omega
    have h2 : (o + (a : Int)).toNat = (chunk.take o.toNat).length + a := by omega
    conv_lhs => rw [hchunk]
    rw [h1, h2]
    rw [List.take_append, List.drop_append]
  · rw [if_neg (by omega : ¬ o + (a : Int) < o + (b : Int))]
    have hba : a = b := by omega
    subst hba
    exact (List.drop_eq_nil_of_le (by rw [List.length_take]; omega)).symm

theorem vintLength_suffix {chunk suf : List Nat} {o : Int} (ho : 0 ≤ o)
    (hlen : o.toNat ≤ chunk.length) (hd : List.drop o.toNat chunk = suf) :
    vintLength chunk o =
      if msbScan (suf.headD 0) + 1 ≤ suf.length then some (msbScan (suf.headD 0) + 1)
      else none := by
  have hclen := length_suffix ho hlen hd
  unfold vintLength
  dsimp only
  have hk := jsGet_suffix ho hd 0
  rw [show o + ((0 : Nat) : Int) = o from by norm_num] at hk
  rw [hk, getElem?_zero_getD]
  by_cases hc : msbScan (suf.headD 0) + 1 ≤ suf.length
  · rw [if_neg (by push_cast; omega), if_pos hc]
  · rw [if_pos (by push_cast; omega), if_neg hc]

theorem expandSteps_suffix {chunk bs r : List Nat} {o : Int} (ho : 0 ≤ o)
    (hd : List.drop o.toNat chunk = bs ++ r) :
    ∀ m j v, j + m ≤ bs.length →
      expandSteps chunk m (o + (j : Int)) v = expandSteps bs m ((j : Nat) : Int) v
  | 0, j, v, hj => rfl
  | m + 1, j, v, hj => by
    simp only [expandSteps]
    have hg : jsGet chunk (o + (j : Int)) = (bs ++ r)[j]? := jsGet_suffix ho hd j
    have hj' : j < bs.length := by omega
    have hbg : (bs ++ r)[j]? = bs[j]? := List.getElem?_append_left hj'
    have hgb : jsGet bs ((j : Nat) : Int) = bs[j]? := by
      unfold jsGet
      rw [if_pos (by positivity)]
      norm_num
    rw [show o + (j : Int) + 1 = o + ((j + 1 : Nat) : Int) from by push_cast; ring]
    rw [show ((j : Nat) : Int) + 1 = ((j + 1 : Nat) : Int) from by push_cast; ring]
    rw [hg, hbg, ← hgb]
    exact expandSteps_suffix ho hd m (j + 1) _ (by omega)

theorem expandVint_suffix {chunk bs r : List Nat} {o : Int} (ho : 0 ≤ o)
    (hlen : o.toNat ≤ chunk.length) (hd : List.drop o.toNat chunk = bs ++ r)
    (hshape : msbScan (bs.headD 0) + 1 = bs.length) :
    expandVint chunk o (o + (bs.length : Int)) = some (sizeValue bs) := by
  have hbs1 : 1 ≤ bs.length := by omega
  have hbsne : bs ≠ [] := by
    intro h
    rw [h] at hbs1
    simp at hbs1
  have hhead : (bs ++ r).headD 0 = bs.headD 0 := headD_append_of_ne r hbsne
  have hclen := length_suffix ho hlen hd
  have hvl : vintLength chunk o = some bs.length := by
    rw [vintLength_suffix ho hlen hd, hhead, hshape,
      if_pos (by rw [List.length_append]; omega)]
  unfold expandVint
  rw [hvl]
  dsimp only
  rw [if_neg (by rw [List.length_append] at hclen; push_cast; omega)]
  have hb0 : jsGet chunk o = (bs ++ r)[0]? := by
    have hh := jsGet_suffix ho hd 0
    rwa [show o + ((0 : Nat) : Int) = o from by norm_num] at hh
  rw [hb0, List.getElem?_append_left (by omega), getElem?_zero_getD bs]
  unfold expandLoop
  have hsteps : (o + (bs.length : Int) - (o + 1)).toNat = bs.length - 1 := by omega
  rw [hsteps]
  rw [show o + 1 = o + ((1 : Nat) : Int) from by norm_num]
  rw [expandSteps_suffix ho hd (bs.length - 1) 1 _ (by omega)]
  unfold sizeValue
  norm_num

/-! ### One `_readTag` on a completely buffered token -/

theorem readTag_token {core : Core} {chunk : List Nat} {o count : Int} {t : Tok} {rest : List Nat}
    (ho : 0 ≤ o) (hlen : o.toNat ≤ chunk.length)
    (hd : List.drop o.toNat chunk = encodeTok t ++ rest)
    (hwf : WfTok t) :
    readTag core chunk o count =
      match refStep core t with
      | .error e => .error e
      | .ok (c', em) =>
        if TAGS t.id = none ∧ rest = [] then
          .ok (.step c' (o + ((t.id.length + t.sizeBytes.length : Nat) : Int))
            (some (count + o + (((encodeTok t).length : Nat) : Int))) em)
        else .ok (.step c' (o + (((encodeTok t).length : Nat) : Int)) none em) := by
  obtain ⟨hids, hszs, hsz⟩ := hwf
  have hid1 : 1 ≤ t.id.length := by omega
  have hsz1 : 1 ≤ t.sizeBytes.length := by omega
  have hidne : t.id ≠ [] := by intro h; rw [h] at hid1; simp at hid1
  have hszne : t.sizeBytes ≠ [] := by intro h; rw [h] at hsz1; simp at hsz1
  have hencL : (encodeTok t).length = t.id.length + t.sizeBytes.length + t.data.length := by
    simp [encodeTok]
    omega
  have hsufassoc : encodeTok t ++ rest = t.id ++ (t.sizeBytes ++ (t.data ++ rest)) := by
    simp [encodeTok]
  have hclen := length_suffix ho hlen hd
  have hsuflen : (encodeTok t ++ rest).length = (encodeTok t).length + rest.length := by
    simp
  have hhead : (encodeTok t ++ rest).headD 0 = t.id.headD 0 := by
    rw [hsufassoc]
    exact headD_append_of_ne _ hidne
  have hvl1 : vintLength chunk o = some t.id.length := by
    rw [vintLength_suffix ho hlen hd, hhead, hids, if_pos (by rw [hsuflen, hencL]; omega)]
  have hidslice : jsSlice chunk o (o + (t.id.length : Int)) = t.id := by
    have hs := jsSlice_suffix ho hlen hd (a := 0) (b := t.id.length) (by omega)
      (by rw [hsuflen, hencL]; omega)
    rw [show o + ((0 : Nat) : Int) = o from by norm_num] at hs
    rw [hs, List.drop_zero, hsufassoc]
    exact List.take_left ..
  have hdrop1 : List.drop (o + (t.id.length : Int)).toNat chunk
      = t.sizeBytes ++ (t.data ++ rest) := by
    have ht : (o + (t.id.length : Int)).toNat = o.toNat + t.id.length := by omega
    rw [ht, ← List.drop_drop, hd, hsufassoc]
    exact List.drop_left ..
  have hlen1 : (o + (t.id.length : Int)).toNat ≤ chunk.length := by
    rw [hclen, hsuflen, hencL]
    omega
  have hvl2 : vintLength chunk (o + (t.id.length : Int)) = some t.sizeBytes.length := by
    rw [vintLength_suffix (by omega) hlen1 hdrop1, headD_append_of_ne _ hszne, hszs,
      if_pos (by simp)]
  have hev : expandVint chunk (o + (t.id.length : Int))
      (o + (t.id.length : Int) + (t.sizeBytes.length : Int)) = some (sizeValue t.sizeBytes) :=
    expandVint_suffix (by omega) hlen1 hdrop1 hszs
  have hdslice : jsSlice chunk (o + (t.id.length : Int) + (t.sizeBytes.length : Int))
      (o + (t.id.length : Int) + (t.sizeBytes.length : Int) + (t.data.length : Int)) = t.data := by
    have hs := jsSlice_suffix ho hlen hd (a := t.id.length + t.sizeBytes.length)
      (b := t.id.length + t.sizeBytes.length + t.data.length) (by omega)
      (by rw [hsuflen, hencL]; omega)
    rw [show o + ((t.id.length + t.sizeBytes.length : Nat) : Int)
        = o + (t.id.length : Int) + (t.sizeBytes.length : Int) from by push_cast; ring] at hs
    rw [show o + ((t.id.length + t.sizeBytes.length + t.data.length : Nat) : Int)
        = o + (t.id.length : Int) + (t.sizeBytes.length : Int) + (t.data.length : Int)
        from by push_cast; ring] at hs
    rw [hs]
    rw [show (encodeTok t ++ rest).take (t.id.length + t.sizeBytes.length + t.data.length)
        = encodeTok t from by rw [← hencL]; exact List.take_left ..]
    rw [show encodeTok t = (t.id ++ t.sizeBytes) ++ t.data from by simp [encodeTok]]
    rw [show t.id.length + t.sizeBytes.length = (t.id ++ t.sizeBytes).length from by simp]
    exact List.drop_left ..
  have hclenInt : (chunk.length : Int)
      = o + ((encodeTok t).length : Int) + (rest.length : Int) := by
    rw [hclen, hsuflen]
    push_cast
    omega
  unfold readTag readEBMLId readTagDataSize
  rw [hvl1]
  dsimp only
  rw [hidslice, hvl2]
  dsimp only
  rw [hev]
  dsimp only
  unfold refStep
  by_cases hgate : core.ebmlFound = false ∧ t.id ≠ ebmlId
  · rw [if_pos hgate, if_pos hgate]
  · rw [if_neg hgate, if_neg hgate]
    cases htag : TAGS t.id with
    | none =>
      dsimp only
      have hdl : sizeValue t.sizeBytes = (t.data.length : Int) := by
        rw [htag] at hsz
        simpa using hsz
      rw [hdl]
      by_cases hrest : rest = []
      · subst hrest
        rw [if_neg (by rw [hclenInt, hencL]; push_cast; simp; omega)]
        rw [if_pos ⟨rfl, rfl⟩]
        rw [show o + (t.id.length : Int) + (t.sizeBytes.length : Int)
            = o + ((t.id.length + t.sizeBytes.length : Nat) : Int) from by push_cast; ring]
        rw [show count + (o + ((t.id.length + t.sizeBytes.length : Nat) : Int))
              + (t.data.length : Int)
            = count + o + (((encodeTok t).length : Nat) : Int) from by
          rw [hencL]
          push_cast
          ring]
      · have hr1 : 1 ≤ rest.length := by
          cases rest with
          | nil => exact absurd rfl hrest
          | cons a l => simp
        rw [if_pos (by rw [hclenInt, hencL]; push_cast; omega)]
        rw [if_neg (by simp [hrest])]
        rw [show o + (t.id.length : Int) + (t.sizeBytes.length : Int) + (t.data.length : Int)
            = o + (((encodeTok t).length : Nat) : Int) from by
          rw [hencL]
          push_cast
          ring]
    | some b =>
      cases b with
      | true =>
        dsimp only
        have hdata : t.data = [] := by
          rw [htag] at hsz
          simpa using hsz
        rw [if_neg (by simp)]
        rw [show o + (t.id.length : Int) + (t.sizeBytes.length : Int)
            = o + (((encodeTok t).length : Nat) : Int) from by
          rw [hencL, hdata]
          push_cast [List.length_nil]
          ring]
      | false =>
        dsimp only
        have hdl : sizeValue t.sizeBytes = (t.data.length : Int) := by
          rw [htag] at hsz
          simpa using hsz
        rw [hdl]
        rw [if_neg (show ¬ (o + (t.id.length : Int) + (t.sizeBytes.length : Int)
            + (t.data.length : Int) > (chunk.length : Int)) from by
          rw [hclenInt, hencL]
          push_cast
          omega)]
        rw [hdslice]
        rw [show o + (t.id.length : Int) + (t.sizeBytes.length : Int) + (t.data.length : Int)
            = o + (((encodeTok t).length : Nat) : Int) from by
          rw [hencL]
          push_cast
          ring]
        cases heff : leafEffect (coreFlag core) t.id t.data with
        | error e => simp [Except.map]
        | ok v =>
          obtain ⟨c1, em⟩ := v
          simp [Except.map]

/-! ### One `_readTag` on a partially buffered token -/

theorem vintLength_field_none {chunk suf q bs tail : List Nat} {o : Int}
    (ho : 0 ≤ o) (hlen : o.toNat ≤ chunk.length) (hd : List.drop o.toNat chunk = suf)
    (hshape : msbScan (bs.headD 0) + 1 = bs.length)
    (hpref : suf ++ q = bs ++ tail) (hshort : suf.length < bs.length) :
    vintLength chunk o = none := by
  rw [vintLength_suffix ho hlen hd]
  cases hsuf : suf with
  | nil =>
    rw [if_neg (by simp [msbScan])]
  | cons a l =>
    have hne : suf ≠ [] := by rw [hsuf]; simp
    have hbsne : bs ≠ [] := by
      intro h
      rw [h] at hshape
      simp [msbScan] at hshape
    have hh : suf.headD 0 = bs.headD 0 := by
      rw [← headD_append_of_ne q hne, hpref, headD_append_of_ne tail hbsne]
    rw [← hsuf, hh, hshape, if_neg (by omega)]

theorem vintLength_field_some {chunk suf q bs tail : List Nat} {o : Int}
    (ho : 0 ≤ o) (hlen : o.toNat ≤ chunk.length) (hd : List.drop o.toNat chunk = suf)
    (hshape : msbScan (bs.headD 0) + 1 = bs.length)
    (hpref : suf ++ q = bs ++ tail) (hge : bs.length ≤ suf.length) (hbs1 : 1 ≤ bs.length) :
    vintLength chunk o = some bs.length := by
  have hne : suf ≠ [] := by
    intro h
    rw [h] at hge
    simp only [List.length_nil, Nat.le_zero] at hge
    omega
  have hbsne : bs ≠ [] := by
    intro h
    rw [h] at hbs1
    simp at hbs1
  have hh : suf.headD 0 = bs.headD 0 := by
    rw [← headD_append_of_ne q hne, hpref, headD_append_of_ne tail hbsne]
  rw [vintLength_suffix ho hlen hd, hh, hshape, if_pos hge]

theorem jsSlice_field {chunk suf q bs tail : List Nat} {o : Int}
    (ho : 0 ≤ o) (hlen : o.toNat ≤ chunk.length) (hd : List.drop o.toNat chunk = suf)
    (hpref : suf ++ q = bs ++ tail) (hge : bs.length ≤ suf.length) :
    jsSlice chunk o (o + (bs.length : Int)) = bs := by
  have hs := jsSlice_suffix ho hlen hd (a := 0) (b := bs.length) (by omega) hge
  rw [show o + ((0 : Nat) : Int) = o from by norm_num] at hs
  rw [hs, List.drop_zero]
  rw [show suf.take bs.length = (suf ++ q).take bs.length from
    (List.take_append_of_le_length hge).symm]
  rw [hpref]
  exact List.take_left ..

theorem readTag_partial_id {core : Core} {chunk : List Nat} {o count : Int} {t : Tok}
    {suf q tailEnc : List Nat}
    (ho : 0 ≤ o) (hlen : o.toNat ≤ chunk.length) (hd : List.drop o.toNat chunk = suf)
    (hq : suf ++ q = encodeTok t ++ tailEnc)
    (hwf : WfTok t) (hshort : suf.length < t.id.length) :
    readTag core chunk o count = .ok (.tooShort core) := by
  obtain ⟨hids, hszs, hsz⟩ := hwf
  have hq' : suf ++ q = t.id ++ (t.sizeBytes ++ (t.data ++ tailEnc)) := by
    rw [hq]
    simp [encodeTok]
  have hvl : vintLength chunk o = none :=
    vintLength_field_none ho hlen hd hids hq' hshort
  unfold readTag readEBMLId
  rw [hvl]

theorem readTag_partial_gate {core : Core} {chunk : List Nat} {o count : Int} {t : Tok}
    {suf q tailEnc : List Nat}
    (ho : 0 ≤ o) (hlen : o.toNat ≤ chunk.length) (hd : List.drop o.toNat chunk = suf)
    (hq : suf ++ q = encodeTok t ++ tailEnc)
    (hwf : WfTok t) (hge : t.id.length ≤ suf.length)
    (hgate : core.ebmlFound = false ∧ t.id ≠ ebmlId) :
    readTag core chunk o count = .error .missingHeader := by
  obtain ⟨hids, hszs, hsz⟩ := hwf
  have hq' : suf ++ q = t.id ++ (t.sizeBytes ++ (t.data ++ tailEnc)) := by
    rw [hq]
    simp [encodeTok]
  have hid1 : 1 ≤ t.id.length := by omega
  have hvl : vintLength chunk o = some t.id.length :=
    vintLength_field_some ho hlen hd hids hq' hge hid1
  have hsl : jsSlice chunk o (o + (t.id.length : Int)) = t.id :=
    jsSlice_field ho hlen hd hq' hge
  unfold readTag readEBMLId
  rw [hvl]
  dsimp only
  rw [hsl, if_pos hgate]

theorem readTag_partial_size {core : Core} {chunk : List Nat} {o count : Int} {t : Tok}
    {suf q tailEnc : List Nat}
    (ho : 0 ≤ o) (hlen : o.toNat ≤ chunk.length) (hd : List.drop o.toNat chunk = suf)
    (hq : suf ++ q = encodeTok t ++ tailEnc)
    (hwf : WfTok t) (hge : t.id.length ≤ suf.length)
    (hshort : suf.length < t.id.length + t.sizeBytes.length)
    (hgate : ¬ (core.ebmlFound = false ∧ t.id ≠ ebmlId)) :
    readTag core chunk o count = .ok (.tooShort (coreFlag core)) := by
  obtain ⟨hids, hszs, hsz⟩ := hwf
  have hq' : suf ++ q = t.id ++ (t.sizeBytes ++ (t.data ++ tailEnc)) := by
    rw [hq]
    simp [encodeTok]
  have hid1 : 1 ≤ t.id.length := by omega
  have hclen := length_suffix ho hlen hd
  have hvl1 : vintLength chunk o = some t.id.length :=
    vintLength_field_some ho hlen hd hids hq' hge hid1
  have hsl : jsSlice chunk o (o + (t.id.length : Int)) = t.id :=
    jsSlice_field ho hlen hd hq' hge
  have hdrop1 : List.drop (o + (t.id.length : Int)).toNat chunk = suf.drop t.id.length := by
    have ht : (o + (t.id.length : Int)).toNat = o.toNat + t.id.length := by omega
    rw [ht, ← List.drop_drop, hd]
  have hpref2 : suf.drop t.id.length ++ q = t.sizeBytes ++ (t.data ++ tailEnc) := by
    have h1 := congrArg (List.drop t.id.length) hq'
    rw [List.drop_append_of_le_length hge, List.drop_left] at h1
    exact h1
  have hlen1 : (o + (t.id.length : Int)).toNat ≤ chunk.length := by omega
  have hshort2 : (suf.drop t.id.length).length < t.sizeBytes.length := by
    rw [List.length_drop]
    omega
  have hvl2 : vintLength chunk (o + (t.id.length : Int)) = none :=
    vintLength_field_none (by omega) hlen1 hdrop1 hszs hpref2 hshort2
  unfold readTag readEBMLId readTagDataSize
  rw [hvl1]
  dsimp only
  rw [hsl, hvl2, if_neg hgate]

theorem readTag_partial_skip {core : Core} {chunk : List Nat} {o count : Int} {t : Tok}
    {suf q tailEnc : List Nat}
    (ho : 0 ≤ o) (hlen : o.toNat ≤ chunk.length) (hd : List.drop o.toNat chunk = suf)
    (hq : suf ++ q = encodeTok t ++ tailEnc)
    (hwf : WfTok t) (hge : t.id.length + t.sizeBytes.length ≤ suf.length)
    (hshort : suf.length < (encodeTok t).length)
    (hgate : ¬ (core.ebmlFound = false ∧ t.id ≠ ebmlId))
    (htag : TAGS t.id = none) :
    readTag core chunk o count =
      .ok (.step (coreFlag core) (o + ((t.id.length + t.sizeBytes.length : Nat) : Int))
        (some (count + o + (((encodeTok t).length : Nat) : Int))) none) := by
  obtain ⟨hids, hszs, hsz⟩ := hwf
  have hq' : suf ++ q = t.id ++ (t.sizeBytes ++ (t.data ++ tailEnc)) := by
    rw [hq]
    simp [encodeTok]
  have hid1 : 1 ≤ t.id.length := by omega
  have hencL : (encodeTok t).length = t.id.length + t.sizeBytes.length + t.data.length := by
    simp [encodeTok]
    omega
  have hclen := length_suffix ho hlen hd
  have hvl1 : vintLength chunk o = some t.id.length :=
    vintLength_field_some ho hlen hd hids hq' (by omega) hid1
  have hsl : jsSlice chunk o (o + (t.id.length : Int)) = t.id :=
    jsSlice_field ho hlen hd hq' (by omega)
  have hdrop1 : List.drop (o + (t.id.length : Int)).toNat chunk = suf.drop t.id.length := by
    have ht : (o + (t.id.length : Int)).toNat = o.toNat + t.id.length := by omega
    rw [ht, ← List.drop_drop, hd]
  have hpref2 : suf.drop t.id.length ++ q = t.sizeBytes ++ (t.data ++ tailEnc) := by
    have h1 := congrArg (List.drop t.id.length) hq'
    rw [List.drop_append_of_le_length (by omega), List.drop_left] at h1
    exact h1
  have hge2 : t.sizeBytes.length ≤ (suf.drop t.id.length).length := by
    rw [List.length_drop]
    omega
  have hsplit : suf.drop t.id.length
      = t.sizeBytes ++ (suf.drop t.id.length).drop t.sizeBytes.length := by
    conv_lhs => rw [← List.take_append_drop t.sizeBytes.length (suf.drop t.id.length)]
    congr 1
    rw [show (suf.drop t.id.length).take t.sizeBytes.length
        = ((suf.drop t.id.length) ++ q).take t.sizeBytes.length from
      (List.take_append_of_le_length hge2).symm]
    rw [hpref2]
    exact List.take_left ..
  have hdrop2 : List.drop (o + (t.id.length : Int)).toNat chunk
      = t.sizeBytes ++ (suf.drop t.id.length).drop t.sizeBytes.length := by
    rw [hdrop1, ← hsplit]
  have hlen1 : (o + (t.id.length : Int)).toNat ≤ chunk.length := by omega
  have hvl2 : vintLength chunk (o + (t.id.length : Int)) = some t.sizeBytes.length :=
    vintLength_field_some (by omega) hlen1 hdrop1 hszs hpref2 hge2 (by omega)
  have hev : expandVint chunk (o + (t.id.length : Int))
      (o + (t.id.length : Int) + (t.sizeBytes.length : Int)) = some (sizeValue t.sizeBytes) :=
    expandVint_suffix (by omega) hlen1 hdrop2 hszs
  have hdl : sizeValue t.sizeBytes = (t.data.length : Int) := by
    have := hsz
    rw [if_neg (by rw [htag]; simp)] at this
    rw [this]
  unfold readTag readEBMLId readTagDataSize
  rw [hvl1]
  dsimp only
  rw [hsl, hvl2]
  dsimp only
  rw [hev]
  dsimp only
  rw [if_neg hgate, htag]
  dsimp only
  rw [hdl]
  rw [if_neg (show ¬ ((chunk.length : Int) > o + (t.id.length : Int)
      + (t.sizeBytes.length : Int) + (t.data.length : Int)) from by
    rw [hencL] at hshort
    push_cast
    omega)]
  rw [show o + (t.id.length : Int) + (t.sizeBytes.length : Int)
      = o + ((t.id.length + t.sizeBytes.length : Nat) : Int) from by push_cast; ring]
  rw [show count + (o + ((t.id.length + t.sizeBytes.length : Nat) : Int)) + (t.data.length : Int)
      = count + o + (((encodeTok t).length : Nat) : Int) from by
    rw [hencL]
    push_cast
    ring]

theorem readTag_partial_leaf {core : Core} {chunk : List Nat} {o count : Int} {t : Tok}
    {suf q tailEnc : List Nat}
    (ho : 0 ≤ o) (hlen : o.toNat ≤ chunk.length) (hd : List.drop o.toNat chunk = suf)
    (hq : suf ++ q = encodeTok t ++ tailEnc)
    (hwf : WfTok t) (hge : t.id.length + t.sizeBytes.length ≤ suf.length)
    (hshort : suf.length < (encodeTok t).length)
    (hgate : ¬ (core.ebmlFound = false ∧ t.id ≠ ebmlId))
    (htag : TAGS t.id = some false) :
    readTag core chunk o count = .ok (.tooShort (coreFlag core)) := by
  obtain ⟨hids, hszs, hsz⟩ := hwf
  have hq' : suf ++ q = t.id ++ (t.sizeBytes ++ (t.data ++ tailEnc)) := by
    rw [hq]
    simp [encodeTok]
  have hid1 : 1 ≤ t.id.length := by omega
  have hencL : (encodeTok t).length = t.id.length + t.sizeBytes.length + t.data.length := by
    simp [encodeTok]
    omega
  have hclen := length_suffix ho hlen hd
  have hvl1 : vintLength chunk o = some t.id.length :=
    vintLength_field_some ho hlen hd hids hq' (by omega) hid1
  have hsl : jsSlice chunk o (o + (t.id.length : Int)) = t.id :=
    jsSlice_field ho hlen hd hq' (by omega)
  have hdrop1 : List.drop (o + (t.id.length : Int)).toNat chunk = suf.drop t.id.length := by
    have ht : (o + (t.id.length : Int)).toNat = o.toNat + t.id.length := by omega
    rw [ht, ← List.drop_drop, hd]
  have hpref2 : suf.drop t.id.length ++ q = t.sizeBytes ++ (t.data ++ tailEnc) := by
    have h1 := congrArg (List.drop t.id.length) hq'
    rw [List.drop_append_of_le_length (by omega), List.drop_left] at h1
    exact h1
  have hge2 : t.sizeBytes.length ≤ (suf.drop t.id.length).length := by
    rw [List.length_drop]
    omega
  have hsplit : suf.drop t.id.length
      = t.sizeBytes ++ (suf.drop t.id.length).drop t.sizeBytes.length := by
    conv_lhs => rw [← List.take_append_drop t.sizeBytes.length (suf.drop t.id.length)]
    congr 1
    rw [show (suf.drop t.id.length).take t.sizeBytes.length
        = ((suf.drop t.id.length) ++ q).take t.sizeBytes.length from
      (List.take_append_of_le_length hge2).symm]
    rw [hpref2]
    exact List.take_left ..
  have hdrop2 : List.drop (o + (t.id.length : Int)).toNat chunk
      = t.sizeBytes ++ (suf.drop t.id.length).drop t.sizeBytes.length := by
    rw [hdrop1, ← hsplit]
  have hlen1 : (o + (t.id.length : Int)).toNat ≤ chunk.length := by omega
  have hvl2 : vintLength chunk (o + (t.id.length : Int)) = some t.sizeBytes.length :=
    vintLength_field_some (by omega) hlen1 hdrop1 hszs hpref2 hge2 (by omega)
  have hev : expandVint chunk (o + (t.id.length : Int))
      (o + (t.id.length : Int) + (t.sizeBytes.length : Int)) = some (sizeValue t.sizeBytes) :=
    expandVint_suffix (by omega) hlen1 hdrop2 hszs
  have hdl : sizeValue t.sizeBytes = (t.data.length : Int) := by
    have := hsz
    rw [if_neg (by rw [htag]; simp)] at this
    rw [this]
  unfold readTag readEBMLId readTagDataSize
  rw [hvl1]
  dsimp only
  rw [hsl, hvl2]
  dsimp only
  rw [hev]
  dsimp only
  rw [if_neg hgate, htag]
  dsimp only
  rw [hdl]
  rw [if_pos (show o + (t.id.length : Int) + (t.sizeBytes.length : Int)
      + (t.data.length : Int) > (chunk.length : Int) from by
    rw [hencL] at hshort
    push_cast
    omega)]


/-! ### The `_transform` loop over a token-aligned buffer -/

theorem encodeToks_cons (t : Tok) (ts : List Tok) :
    encodeToks (t :: ts) = encodeTok t ++ encodeToks ts := by
  simp [encodeToks]

theorem encodeToks_nil : encodeToks [] = [] := rfl

theorem encodeTok_len_pos {t : Tok} (hwf : WfTok t) : 0 < (encodeTok t).length := by
  obtain ⟨hids, _, _⟩ := hwf
  simp [encodeTok]
  omega

theorem encodeToks_ne_nil {t : Tok} {ts : List Tok} (hwf : WfTok t) :
    encodeToks (t :: ts) ≠ [] := by
  rw [encodeToks_cons]
  intro h
  have h1 : encodeTok t = [] := (List.append_eq_nil.mp h).1
  have h2 := encodeTok_len_pos hwf
  rw [h1] at h2
  simp at h2

theorem readTag_end {core : Core} {chunk : List Nat} {o count : Int}
    (ho : 0 ≤ o) (hlen : o.toNat ≤ chunk.length)
    (hd : List.drop o.toNat chunk = []) :
    readTag core chunk o count = .ok (.tooShort core) := by
  have hvl : vintLength chunk o = none := by
    rw [vintLength_suffix ho hlen hd]
    rw [if_neg (by simp [msbScan])]
  unfold readTag readEBMLId
  rw [hvl]

theorem parseLoop_toks_error {chunk : List Nat} :
    ∀ (toks : List Tok) (core : Core) (o count : Int) (fuel : Nat) (suf : List Nat) (e : Err),
    0 ≤ o → o.toNat ≤ chunk.length →
    List.drop o.toNat chunk = encodeToks toks ++ suf →
    (∀ t ∈ toks, WfTok t) →
    toks.length < fuel →
    (refRun core toks).2 = .error e →
    parseLoop fuel core chunk o count = ((refRun core toks).1, .error e)
  | [], core, o, count, fuel, suf, e, ho, hlen, hd, hwt, hfuel, hrun => by
    simp [refRun] at hrun
  | t :: ts, core, o, count, fuel, suf, e, ho, hlen, hd, hwt, hfuel, hrun => by
    obtain ⟨f, rfl⟩ : ∃ f, fuel = f + 1 := ⟨fuel - 1, by omega⟩
    have hwf : WfTok t := hwt t (by simp)
    have hd' : List.drop o.toNat chunk = encodeTok t ++ (encodeToks ts ++ suf) := by
      rw [hd, encodeToks_cons, List.append_assoc]
    have hRT := @readTag_token core chunk o count t _ ho hlen hd' hwf
    rw [refRun] at hrun ⊢
    cases hstep : refStep core t with
    | error e2 =>
      rw [hstep] at hrun hRT
      dsimp only at hrun hRT
      injection hrun with hrun
      subst hrun
      rw [parseLoop, hRT]
    | ok v =>
      obtain ⟨c2, em⟩ := v
      rw [hstep] at hrun hRT
      dsimp only at hrun hRT
      by_cases hbr : TAGS t.id = none ∧ encodeToks ts ++ suf = []
      · obtain ⟨htn, hnil⟩ := hbr
        have hts : ts = [] := by
          cases ts with
          | nil => rfl
          | cons a l =>
            exact absurd (by
              have := List.append_eq_nil.mp hnil
              exact this.1) (encodeToks_ne_nil (hwt a (by simp)))
        subst hts
        simp [refRun] at hrun
      · rw [if_neg hbr] at hRT
        have henc1 : 1 ≤ (encodeTok t).length := encodeTok_len_pos hwf
        have hd2 : List.drop (o + (((encodeTok t).length : Nat) : Int)).toNat chunk
            = encodeToks ts ++ suf := by
          have ht2 : (o + (((encodeTok t).length : Nat) : Int)).toNat
              = o.toNat + (encodeTok t).length := by omega
          rw [ht2, ← List.drop_drop, hd', List.drop_left]
        have hlen2 : (o + (((encodeTok t).length : Nat) : Int)).toNat ≤ chunk.length := by
          have hcl := length_suffix ho hlen hd'
          simp at hcl
          omega
        have hrun2 : (refRun c2 ts).2 = .error e := hrun
        have hIH := parseLoop_toks_error ts c2 (o + (((encodeTok t).length : Nat) : Int)) count
          f suf e (by omega) hlen2 hd2 (fun u hu => hwt u (by simp [hu])) (by simp at hfuel; omega)
          hrun2
        rw [parseLoop, hRT]
        dsimp only
        rw [if_neg (by simp [jsTruthyOpt])]
        rw [if_pos (by intro h0; omega)]
        rw [hIH]


theorem lastUnknown_cons (t a : Tok) (l : List Tok) :
    lastUnknown (t :: a :: l) = lastUnknown (a :: l) := by
  simp [lastUnknown, List.getLast?_cons_cons]

theorem parseLoop_toks_ok {chunk : List Nat} :
    ∀ (toks : List Tok) (core : Core) (o count : Int) (fuel : Nat)
      (suf q : List Nat) (pend : List Tok) (cF : Core),
    0 ≤ o → 0 ≤ count → o.toNat ≤ chunk.length →
    List.drop o.toNat chunk = encodeToks toks ++ suf →
    suf ++ q = encodeToks pend →
    (∀ u us, pend = u :: us → suf.length < (encodeTok u).length) →
    (pend = [] → suf = []) →
    (∀ t ∈ toks, WfTok t) → (∀ t ∈ pend, WfTok t) →
    toks.length < fuel →
    (refRun core toks).2 = .ok cF →
    parseLoop fuel core chunk o count =
      ((refRun core toks).1,
        if suf.isEmpty && lastUnknown toks then
          .ok (cF, o + ((encodeToks toks.dropLast).length : Int),
            some (count + o + ((encodeToks toks).length : Int)))
        else tokStall cF (o + ((encodeToks toks).length : Int)) count suf pend)
  | [], core, o, count, fuel, suf, q, pend, cF, ho, hcount, hlen, hd, hq, hpp, hpe,
      hwt, hwp, hfuel, hrun => by
    obtain ⟨f, rfl⟩ : ∃ f, fuel = f + 1 := ⟨fuel - 1, by omega⟩
    have hcF : core = cF := by
      simp [refRun] at hrun
      exact hrun
    subst hcF
    simp only [encodeToks_nil, List.nil_append] at hd
    rw [if_neg (by simp [lastUnknown])]
    simp only [refRun, encodeToks_nil, List.length_nil, Nat.cast_zero, add_zero,
      List.dropLast_nil]
    cases hpend : pend with
    | nil =>
      have hsuf : suf = [] := hpe hpend
      subst hsuf
      have hre := @readTag_end core chunk o count ho hlen hd
      rw [parseLoop, hre]
      rfl
    | cons u us =>
      subst hpend
      have hwu : WfTok u := hwp u (by simp)
      have hq' : suf ++ q = encodeTok u ++ encodeToks us := by
        rw [hq, encodeToks_cons]
      have hprop : suf.length < (encodeTok u).length := hpp u us rfl
      by_cases hid : suf.length < u.id.length
      · have hre := @readTag_partial_id core chunk o count u _ _ _ ho hlen hd hq' hwu hid
        rw [parseLoop, hre]
        simp only [tokStall]
        rw [if_neg (by omega)]
      · push_neg at hid
        by_cases hgate : core.ebmlFound = false ∧ u.id ≠ ebmlId
        · have hre := @readTag_partial_gate core chunk o count u _ _ _ ho hlen hd hq'
            hwu hid hgate
          rw [parseLoop, hre]
          simp only [tokStall]
          rw [if_pos hid, if_pos hgate]
        · by_cases hhdr : suf.length < u.id.length + u.sizeBytes.length
          · have hre := @readTag_partial_size core chunk o count u _ _ _ ho hlen hd hq'
              hwu hid hhdr hgate
            rw [parseLoop, hre]
            simp only [tokStall]
            rw [if_pos hid, if_neg hgate, if_neg (by
              intro hcon
              omega)]
          · push_neg at hhdr
            cases htag : TAGS u.id with
            | none =>
              have hre := @readTag_partial_skip core chunk o count u _ _ _ ho hlen hd hq'
                hwu hhdr hprop hgate htag
              rw [parseLoop, hre]
              dsimp only
              have henc1 : 0 < (encodeTok u).length := encodeTok_len_pos hwu
              rw [if_pos (show jsTruthyOpt (some (count + o + (((encodeTok u).length : Nat)
                  : Int))) = true from by
                simp [jsTruthyOpt]
                omega)]
              simp only [tokStall]
              rw [if_pos hid, if_neg hgate, if_pos ⟨htag, hhdr⟩]
              rfl
            | some b =>
              cases b with
              | true =>
                exfalso
                obtain ⟨hui, hus, husz⟩ := hwu
                rw [if_pos htag] at husz
                have : (encodeTok u).length = u.id.length + u.sizeBytes.length := by
                  simp [encodeTok, husz]
                omega
              | false =>
                have hre := @readTag_partial_leaf core chunk o count u _ _ _ ho hlen hd
                  hq' hwu hhdr hprop hgate htag
                rw [parseLoop, hre]
                simp only [tokStall]
                rw [if_pos hid, if_neg hgate, if_neg (by
                  intro hcon
                  rw [htag] at hcon
                  exact absurd hcon.1 (by simp))]
  | t :: ts, core, o, count, fuel, suf, q, pend, cF, ho, hcount, hlen, hd, hq, hpp, hpe,
      hwt, hwp, hfuel, hrun => by
    obtain ⟨f, rfl⟩ : ∃ f, fuel = f + 1 := ⟨fuel - 1, by omega⟩
    have hwf : WfTok t := hwt t (by simp)
    have henc1 : 0 < (encodeTok t).length := encodeTok_len_pos hwf
    have hd' : List.drop o.toNat chunk = encodeTok t ++ (encodeToks ts ++ suf) := by
      rw [hd, encodeToks_cons, List.append_assoc]
    have hRT := @readTag_token core chunk o count t _ ho hlen hd' hwf
    rw [refRun] at hrun ⊢
    cases hstep : refStep core t with
    | error e2 =>
      rw [hstep] at hrun
      dsimp only at hrun
      exact Except.noConfusion hrun
    | ok v =>
      obtain ⟨c2, em⟩ := v
      rw [hstep] at hrun hRT
      dsimp only at hrun hRT ⊢
      by_cases hbr : TAGS t.id = none ∧ encodeToks ts ++ suf = []
      · obtain ⟨htn, hnil⟩ := hbr
        have hts : ts = [] := by
          cases hts2 : ts with
          | nil => rfl
          | cons a l =>
            subst hts2
            exact absurd (List.append_eq_nil.mp hnil).1
              (encodeToks_ne_nil (hwt a (by simp)))
        subst hts
        have hsuf : suf = [] := (List.append_eq_nil.mp hnil).2
        subst hsuf
        rw [if_pos ⟨htn, hnil⟩] at hRT
        rw [parseLoop, hRT]
        dsimp only
        rw [if_pos (show jsTruthyOpt (some (count + o + (((encodeTok t).length : Nat) : Int)))
            = true from by
          simp [jsTruthyOpt]
          omega)]
        have hc2 : c2 = cF := by
          simp [refRun] at hrun
          exact hrun
        subst hc2
        rw [if_pos (by simp [lastUnknown, htn])]
        simp [refRun, encodeToks_cons, encodeToks_nil]
      · rw [if_neg hbr] at hRT
        have hclen := length_suffix ho hlen hd'
        have hd2 : List.drop (o + (((encodeTok t).length : Nat) : Int)).toNat chunk
            = encodeToks ts ++ suf := by
          have ht2 : (o + (((encodeTok t).length : Nat) : Int)).toNat
              = o.toNat + (encodeTok t).length := by omega
          rw [ht2, ← List.drop_drop, hd', List.drop_left]
        have hlen2 : (o + (((encodeTok t).length : Nat) : Int)).toNat ≤ chunk.length := by
          simp at hclen
          omega
        have hrun2 : (refRun c2 ts).2 = .ok cF := hrun
        have hIH := parseLoop_toks_ok ts c2 (o + (((encodeTok t).length : Nat) : Int)) count
          f suf q pend cF (by omega) hcount hlen2 hd2 hq hpp hpe
          (fun u hu => hwt u (by simp [hu])) hwp (by simp at hfuel; omega) hrun2
        rw [parseLoop, hRT]
        dsimp only
        rw [if_neg (by simp [jsTruthyOpt])]
        rw [if_pos (show o + (((encodeTok t).length : Nat) : Int) ≠ 0 from by omega)]
        rw [hIH]
        cases hts2 : ts with
        | nil =>
          subst hts2
          rw [if_neg (by simp [lastUnknown])]
          rw [if_neg (show ¬ (suf.isEmpty && lastUnknown [t]) = true from by
            intro hcon
            simp [lastUnknown] at hcon
            exact hbr ⟨hcon.2, by
              rw [encodeToks_nil, List.nil_append]
              exact hcon.1⟩)]
          rw [show o + (((encodeTok t).length : Nat) : Int)
                + ((encodeToks ([] : List Tok)).length : Int)
              = o + ((encodeToks [t]).length : Int) from by
            simp [encodeToks]]
        | cons a l =>
          subst hts2
          rw [show lastUnknown (t :: a :: l) = lastUnknown (a :: l) from
            lastUnknown_cons t a l]
          have harith1 : o + (((encodeTok t).length : Nat) : Int)
              + ((encodeToks ((a :: l).dropLast)).length : Int)
              = o + ((encodeToks ((t :: a :: l).dropLast)).length : Int) := by
            rw [show (t :: a :: l).dropLast = t :: (a :: l).dropLast from rfl]
            rw [encodeToks_cons]
            push_cast [List.length_append]
            ring
          have harith2 : count + (o + (((encodeTok t).length : Nat) : Int))
              + ((encodeToks (a :: l)).length : Int)
              = count + o + ((encodeToks (t :: a :: l)).length : Int) := by
            rw [encodeToks_cons (t := t)]
            push_cast [List.length_append]
            ring
          have harith3 : o + (((encodeTok t).length : Nat) : Int)
              + ((encodeToks (a :: l)).length : Int)
              = o + ((encodeToks (t :: a :: l)).length : Int) := by
            rw [encodeToks_cons (t := t)]
            push_cast [List.length_append]
            ring
          rw [harith1, harith2, harith3]


/-! ### Reference-run algebra -/

theorem encodeToks_append (a b : List Tok) :
    encodeToks (a ++ b) = encodeToks a ++ encodeToks b := by
  simp [encodeToks]

theorem tokens_length_le : ∀ {ts : List Tok}, (∀ t ∈ ts, WfTok t) →
    ts.length ≤ (encodeToks ts).length
  | [], _ => by simp [encodeToks]
  | t :: ts, hw => by
    have h1 := encodeTok_len_pos (hw t (by simp))
    have h2 := @tokens_length_le ts (fun u hu => hw u (by simp [hu]))
    rw [encodeToks_cons]
    simp only [List.length_cons, List.length_append]
    omega

theorem coreFlag_idem (core : Core) : coreFlag (coreFlag core) = coreFlag core := by
  unfold coreFlag
  split <;> simp_all

theorem refStep_flag {t : Tok} (h : t.id = ebmlId) (core : Core) :
    refStep core t = refStep (coreFlag core) t := by
  unfold refStep
  rw [if_neg (by simp [h]), if_neg (by simp [h])]
  rw [h]
  rw [show TAGS ebmlId = some true from rfl]
  rw [coreFlag_idem]

theorem refRun_flagCons {t : Tok} (h : t.id = ebmlId) (core : Core) (ts : List Tok) :
    refRun core (t :: ts) = refRun (coreFlag core) (t :: ts) := by
  rw [refRun, refRun, ← refStep_flag h]

theorem refRun_append : ∀ (xs ys : List Tok) (core : Core),
    refRun core (xs ++ ys) =
      match (refRun core xs).2 with
      | .error _ => ((refRun core xs).1, (refRun core xs).2)
      | .ok c => ((refRun core xs).1 ++ (refRun c ys).1, (refRun c ys).2)
  | [], ys, core => by simp [refRun]
  | x :: xs, ys, core => by
    rw [List.cons_append, refRun]
    conv_rhs => rw [refRun]
    cases hstep : refStep core x with
    | error e => rfl
    | ok v =>
      obtain ⟨c2, em⟩ := v
      dsimp only
      rw [refRun_append xs ys c2]
      cases hxs : (refRun c2 xs).2 with
      | error e => simp
      | ok c3 => simp

theorem streamSplit : ∀ (rest : List Tok) (n : Nat), (∀ t ∈ rest, WfTok t) →
    ∃ d2 p2 suf2, rest = d2 ++ p2 ∧
      (encodeToks rest).take n = encodeToks d2 ++ suf2 ∧
      suf2 ++ (encodeToks p2).drop suf2.length = encodeToks p2 ∧
      (p2 = [] → suf2 = []) ∧
      (∀ u us, p2 = u :: us → suf2.length < (encodeTok u).length) ∧
      (encodeToks d2).length + suf2.length = min n (encodeToks rest).length
  | [], n, _ => ⟨[], [], [], by simp [encodeToks], by simp [encodeToks], by simp [encodeToks],
      fun _ => rfl, fun u us h => by simp at h, by simp [encodeToks]⟩
  | t :: ts, n, hw => by
    by_cases hn : n < (encodeTok t).length
    · refine ⟨[], t :: ts, (encodeToks (t :: ts)).take n, by simp, by simp [encodeToks_nil],
        ?_, by simp, ?_, ?_⟩
      · have hlen : ((encodeToks (t :: ts)).take n).length = n := by
          rw [List.length_take]
          rw [encodeToks_cons]
          simp only [List.length_append]
          omega
        rw [hlen]
        exact List.take_append_drop n (encodeToks (t :: ts))
      · intro u us h
        injection h with h1 h2
        subst h1
        have hlen : ((encodeToks (t :: ts)).take n).length = n := by
          rw [List.length_take, encodeToks_cons]
          simp only [List.length_append]
          omega
        rw [hlen]
        omega
      · rw [encodeToks_nil]
        simp only [List.length_nil, List.length_take, Nat.zero_add]
    · push_neg at hn
      obtain ⟨d2, p2, suf2, hsplit, htake, hpref, hpe, hpp, hmin⟩ :=
        streamSplit ts (n - (encodeTok t).length) (fun u hu => hw u (by simp [hu]))
      refine ⟨t :: d2, p2, suf2, by rw [hsplit]; rfl, ?_, hpref, hpe, hpp, ?_⟩
      · rw [encodeToks_cons]
        rw [show n = (encodeTok t).length + (n - (encodeTok t).length) from by omega]
        rw [List.take_append (n - (encodeTok t).length)]
        rw [htake, encodeToks_cons, List.append_assoc]
      · rw [encodeToks_cons, encodeToks_cons]
        simp only [List.length_append]
        omega

theorem jsSlice_to_end {l : List Nat} {a : Int} (ha : 0 ≤ a) (hle : a.toNat ≤ l.length) :
    jsSlice l a ((l.length : Nat) : Int) = l.drop a.toNat := by
  simp only [jsSlice]
  rw [if_neg (by omega : ¬ a < 0)]
  rw [if_neg (by exact_mod_cast Int.not_lt.mpr (Int.natCast_nonneg l.length)
    : ¬ ((l.length : Nat) : Int) < 0)]
  rw [min_eq_left (by omega : a ≤ ((l.length : Nat) : Int))]
  rw [min_eq_left (le_refl _)]
  by_cases hlt : a < ((l.length : Nat) : Int)
  · rw [if_pos hlt]
    rw [Int.toNat_natCast, List.take_length]
  · rw [if_neg hlt]
    have : a.toNat = l.length := by omega
    rw [this, List.drop_length]


theorem refRun_head_error {core : Core} {u : Tok} {us : List Tok} {e : Err}
    (hstep : refStep core u = .error e) : refRun core (u :: us) = ([], .error e) := by
  rw [refRun, hstep]

theorem refRun_app_ok {core c2 : Core} {d2 : List Tok} (p2 : List Tok)
    (hok : (refRun core d2).2 = .ok c2) :
    refRun core (d2 ++ p2)
      = ((refRun core d2).1 ++ (refRun c2 p2).1, (refRun c2 p2).2) := by
  rw [refRun_append d2 p2 core, hok]

theorem refRun_app_error {core : Core} {d2 : List Tok} {e : Err} (p2 : List Tok)
    (herr : (refRun core d2).2 = .error e) :
    refRun core (d2 ++ p2) = ((refRun core d2).1, .error e) := by
  rw [refRun_append d2 p2 core, herr]

theorem flagOk_coreFlag {a b : Core} {r : List Tok} (h : FlagOk a b r) :
    coreFlag b = coreFlag a := by
  rcases h with h | ⟨_, h2, _⟩
  · rw [h]
  · rw [h2, coreFlag_idem]

theorem flagOk_gate {a b : Core} {u : Tok} {us : List Tok} (h : FlagOk a b (u :: us))
    (hg : ¬ (b.ebmlFound = false ∧ u.id ≠ ebmlId)) :
    ¬ (a.ebmlFound = false ∧ u.id ≠ ebmlId) := by
  rcases h with h | ⟨h1, h2, t, ts, hr, hid⟩
  · rw [← h]
    exact hg
  · intro hcon
    injection hr with hr1 hr2
    subst hr1
    exact hcon.2 hid

theorem flagOk_gate_fail {a b : Core} {r : List Tok} (h : FlagOk a b r)
    (hflag : b.ebmlFound = false) : b = a := by
  rcases h with h | ⟨_, h2, _⟩
  · exact h
  · rw [h2] at hflag
    rw [coreFlag_flag] at hflag
    exact absurd hflag (by simp)

theorem flagOk_then {a : Core} {u : Tok} {us : List Tok}
    (hg : ¬ (a.ebmlFound = false ∧ u.id ≠ ebmlId)) :
    FlagOk a (coreFlag a) (u :: us) := by
  by_cases hf : a.ebmlFound
  · left
    unfold coreFlag
    rw [if_pos hf]
  · right
    refine ⟨by simpa using hf, rfl, u, us, rfl, ?_⟩
    by_contra hid
    exact hg ⟨by simpa using hf, hid⟩

theorem lastUnknown_decomp : ∀ {ts : List Tok}, lastUnknown ts = true →
    ∃ init u, ts = init ++ [u] ∧ TAGS u.id = none
  | [], h => by simp [lastUnknown] at h
  | [t], h => by
    refine ⟨[], t, rfl, ?_⟩
    simp [lastUnknown] at h
    exact h
  | t :: a :: l, h => by
    obtain ⟨i, u, hi, hu⟩ := @lastUnknown_decomp (a :: l) (by rwa [lastUnknown_cons] at h)
    exact ⟨t :: i, u, by rw [List.cons_append, ← hi], hu⟩

theorem refStep_unknown {core : Core} {u : Tok} (htag : TAGS u.id = none)
    (hg : ¬ (core.ebmlFound = false ∧ u.id ≠ ebmlId)) :
    refStep core u = .ok (coreFlag core, none) := by
  unfold refStep
  rw [if_neg hg, htag]


theorem transform_parse {s : DemuxState} (c : List Nat) (hskip : s.skipUntil = none) :
    transform s c = transformLoop s.core
      (match s.remainder with | some r => r ++ c | none => c) 0 s.count
      (s.length + (c.length : Int)) none := by
  unfold transform
  rw [hskip]

theorem transformLoop_ok {core : Core} {chunk : List Nat} {offset0 count : Int}
    {length1 : Int} {skip0 : Option Int} {ems : List (List Nat)} {core' : Core}
    {offsetF : Int} {skipF : Option Int}
    (h : parseLoop (chunk.length + 1) core chunk offset0 count = (ems, .ok (core', offsetF, skipF))) :
    transformLoop core chunk offset0 count length1 skip0 =
      (ems, .ok { remainder := some (jsSlice chunk offsetF (chunk.length : Int))
                  length := length1
                  count := count + offsetF
                  skipUntil := skipF.or skip0
                  core := core' }) := by
  unfold transformLoop
  simp only [h]
  cases skipF <;> rfl

theorem transformLoop_error {core : Core} {chunk : List Nat} {offset0 count : Int}
    {length1 : Int} {skip0 : Option Int} {ems : List (List Nat)} {e : Err}
    (h : parseLoop (chunk.length + 1) core chunk offset0 count = (ems, .error e)) :
    transformLoop core chunk offset0 count length1 skip0 = (ems, .error e) := by
  unfold transformLoop
  simp only [h]

theorem refRun_flag_prefix {cR sc : Core} {rest ds : List Tok} (hflag : FlagOk cR sc rest)
    (hpre : ∃ es, rest = ds ++ es) :
    ds = [] ∨ refRun sc ds = refRun cR ds := by
  rcases hflag with hfl | ⟨hfl0, hflc, tE, tsE, hrestE, hidE⟩
  · right
    rw [hfl]
  · cases hds : ds with
    | nil => exact Or.inl rfl
    | cons a l =>
      right
      obtain ⟨es, hes⟩ := hpre
      rw [hrestE, hds] at hes
      have hes2 : tE :: tsE = a :: (l ++ es) := by simpa using hes
      injection hes2 with h1 _
      rw [hflc]
      exact (refRun_flagCons (show a.id = ebmlId from by rw [← h1]; exact hidE) cR l).symm


/-- One `_transform` call from a parsing-mode invariant state: the demuxer
either throws with all reference emissions accounted for, or reaches a
state satisfying one of the two invariants again. -/
theorem transform_stepP {toks : List Tok} {s : DemuxState} {done : List Tok} {bud : Nat}
    {c future : List Nat}
    (hwt : ∀ t ∈ toks, WfTok t)
    (hinv : InvP toks s done bud)
    (hfut : (encodeToks toks).drop s.length.toNat = c ++ future) :
    StepOut toks done c s := by
  obtain ⟨rest, c', htoks, hc', hstall, hflag, hslen, hscount, hskip, hrem⟩ := hinv
  have hwrest : ∀ t ∈ rest, WfTok t := fun t ht => hwt t (by rw [htoks]; simp [ht])
  have hbudle : bud ≤ (encodeToks rest).length := by
    cases hrest : rest with
    | nil =>
      rw [hrest] at hstall
      unfold StallShape at hstall
      omega
    | cons t ts =>
      rw [hrest] at hstall
      unfold StallShape at hstall
      have h1 := hstall.1
      rw [encodeToks_cons]
      simp only [List.length_append]
      omega
  have hslenNat : s.length.toNat = (encodeToks done).length + bud := by
    rw [hslen]
    omega
  have htoksenc : encodeToks toks = encodeToks done ++ encodeToks rest := by
    rw [htoks, encodeToks_append]
  have hfutR : (encodeToks rest).drop bud = c ++ future := by
    have h := hfut
    rw [hslenNat, htoksenc, List.drop_append bud] at h
    exact h
  have hcl : c.length + future.length = (encodeToks rest).length - bud := by
    have h := congrArg List.length hfutR
    simp at h
    omega
  have hNle : bud + c.length ≤ (encodeToks rest).length := by omega
  have hchunklen : ((encodeToks rest).take (bud + c.length)).length = bud + c.length := by
    rw [List.length_take]
    omega
  have hchunkeq : (match s.remainder with | some r => r ++ c | none => c)
      = (encodeToks rest).take (bud + c.length) := by
    rcases hrem with hrem | ⟨hrem, hbud0⟩
    · rw [hrem]
      show (encodeToks rest).take bud ++ c = (encodeToks rest).take (bud + c.length)
      rw [List.take_add]
      congr 1
      rw [hfutR]
      exact (List.take_left ..).symm
    · rw [hrem]
      show c = (encodeToks rest).take (bud + c.length)
      rw [hbud0] at hfutR ⊢
      rw [List.drop_zero] at hfutR
      rw [Nat.zero_add, hfutR]
      exact (List.take_left ..).symm
  have htr : transform s c = transformLoop s.core ((encodeToks rest).take (bud + c.length))
      0 s.count (s.length + (c.length : Int)) none := by
    rw [transform_parse c hskip, hchunkeq]
  obtain ⟨d2, p2, suf2, hsp, htake, hpref, hpe2, hpp2, hmin⟩ :=
    streamSplit rest (bud + c.length) hwrest
  have hmin' : (encodeToks d2).length + suf2.length = bud + c.length := by
    rw [hmin]
    omega
  have hd0 : List.drop (0 : Int).toNat ((encodeToks rest).take (bud + c.length))
      = encodeToks d2 ++ suf2 := by
    simp only [Int.toNat_zero, List.drop_zero]
    exact htake
  have hwd2 : ∀ t ∈ d2, WfTok t := fun t ht => hwrest t (by rw [hsp]; simp [ht])
  have hwp2 : ∀ t ∈ p2, WfTok t := fun t ht => hwrest t (by rw [hsp]; simp [ht])
  have hfuel : d2.length < ((encodeToks rest).take (bud + c.length)).length + 1 := by
    have h1 := tokens_length_le hwd2
    omega
  have hcount0 : 0 ≤ s.count := by
    rw [hscount]
    positivity
  have hlen0 : (0 : Int).toNat ≤ ((encodeToks rest).take (bud + c.length)).length := by simp
  have hEQ : ∀ ds : List Tok, (∃ es, rest = ds ++ es) →
      (refRun c' ds).1 = (refRun s.core ds).1 := by
    intro ds hpre
    rcases refRun_flag_prefix hflag hpre with h | h
    · subst h
      simp [refRun]
    · rw [h]
  have hremdrop : ∀ (k : Nat), k ≤ bud + c.length →
      jsSlice ((encodeToks rest).take (bud + c.length)) ((k : Nat) : Int)
        ((((encodeToks rest).take (bud + c.length)).length : Nat) : Int)
      = ((encodeToks rest).take (bud + c.length)).drop k := by
    intro k hk
    rw [jsSlice_to_end (by positivity) (by omega)]
    rw [Int.toNat_natCast]
  cases hres2 : (refRun s.core d2).2 with
  | error e =>
    have hd2ne : d2 ≠ [] := by
      intro h
      rw [h] at hres2
      simp [refRun] at hres2
    have heq1 : (refRun c' d2).2 = .error e := by
      rcases refRun_flag_prefix hflag ⟨p2, hsp⟩ with h | h
      · exact absurd h hd2ne
      · rw [h] at hres2
        exact hres2
    have hloop := parseLoop_toks_error d2 s.core 0 s.count
      (((encodeToks rest).take (bud + c.length)).length + 1) suf2 e
      (le_refl 0) hlen0 hd0 hwd2 hfuel hres2
    left
    refine ⟨(refRun s.core d2).1, e, ?_, ?_⟩
    · rw [htr]
      exact transformLoop_error hloop
    · rw [htoks, hsp]
      rw [refRun_app_ok (d2 ++ p2) hc']
      dsimp only
      rw [refRun_app_error p2 heq1]
      dsimp only
      rw [hEQ d2 ⟨p2, hsp⟩]
  | ok cF2 =>
    obtain ⟨cC, hCC2, hCC1, hflag2, hccor⟩ :
        ∃ cC, (refRun c' d2).2 = .ok cC ∧ (refRun c' d2).1 = (refRun s.core d2).1 ∧
          FlagOk cC cF2 p2 ∧ (d2 = [] ∨ cC = cF2) := by
      by_cases hd2 : d2 = []
      · subst hd2
        have hcf2 : s.core = cF2 := by simpa [refRun] using hres2
        refine ⟨c', by simp [refRun], by simp [refRun], ?_, Or.inl rfl⟩
        rw [← hcf2]
        have hp2r : rest = p2 := by simpa using hsp
        rw [← hp2r]
        exact hflag
      · rcases refRun_flag_prefix hflag ⟨p2, hsp⟩ with h | h
        · exact absurd h hd2
        · exact ⟨cF2, by rw [h] at hres2; exact hres2, by rw [h], Or.inl rfl, Or.inr rfl⟩
    have hinitapp : refRun initState.core (done ++ d2)
        = ((refRun initState.core done).1 ++ (refRun c' d2).1, (refRun c' d2).2) :=
      refRun_app_ok d2 hc'
    have hemsD : (refRun initState.core (done ++ d2)).1
        = (refRun initState.core done).1 ++ (refRun s.core d2).1 := by
      rw [hinitapp]
      dsimp only
      rw [hCC1]
    have hcoreD : (refRun initState.core (done ++ d2)).2 = .ok cC := by
      rw [hinitapp]
      dsimp only
      exact hCC2
    have hloop := parseLoop_toks_ok d2 s.core 0 s.count
      (((encodeToks rest).take (bud + c.length)).length + 1) suf2
      ((encodeToks p2).drop suf2.length) p2 cF2 (le_refl 0) hcount0 hlen0 hd0 hpref hpp2
      hpe2 hwd2 hwp2 hfuel hres2
    simp only [zero_add, add_zero] at hloop
    by_cases hflush : (suf2.isEmpty && lastUnknown d2) = true
    · -- the chunk ends flush with an unknown tag: a skip target is set
      rw [if_pos hflush] at hloop
      have hflush' := hflush
      simp only [Bool.and_eq_true, List.isEmpty_iff] at hflush'
      obtain ⟨hsuf2e, hlastu⟩ := hflush'
      obtain ⟨d2i, u, hd2dec, htagu⟩ := lastUnknown_decomp hlastu
      subst hsuf2e
      simp only [List.length_nil, Nat.add_zero] at hmin'
      have hd2ne : d2 ≠ [] := by
        rw [hd2dec]
        simp
      have hflageq : cC = cF2 := by
        rcases hccor with h | h
        · exact absurd h hd2ne
        · exact h
      obtain ⟨cMid, hmid, hstepu2, hres2u⟩ :
          ∃ cMid, (refRun s.core d2i).2 = .ok cMid ∧
            refStep cMid u = .ok (coreFlag cMid, none) ∧ (refRun cMid [u]).2 = .ok cF2 := by
        rw [hd2dec] at hres2
        cases hmid : (refRun s.core d2i).2 with
        | error e =>
          rw [refRun_app_error [u] hmid] at hres2
          exact Except.noConfusion hres2
        | ok cMid =>
          rw [refRun_app_ok [u] hmid] at hres2
          dsimp only at hres2
          by_cases hgu : cMid.ebmlFound = false ∧ u.id ≠ ebmlId
          · have hse : refStep cMid u = .error .missingHeader := by
              simp only [refStep]
              rw [if_pos hgu]
            rw [refRun_head_error hse] at hres2
            exact Except.noConfusion hres2
          · exact ⟨cMid, rfl, by simp only [refStep]; rw [if_neg hgu, htagu], hres2⟩
      have hrunu1 : (refRun cMid [u]).1 = [] := by
        rw [refRun, hstepu2]
        simp [refRun]
      have hwu : WfTok u := hwd2 u (by rw [hd2dec]; simp)
      have hdropL : d2.dropLast = d2i := by
        rw [hd2dec, List.dropLast_concat]
      have hlenD2 : (encodeToks d2).length
          = (encodeToks d2i).length + (encodeTok u).length := by
        rw [hd2dec, encodeToks_append]
        simp [encodeToks]
      have hencd2i : (encodeToks d2i).length ≤ bud + c.length := by omega
      have hremU : jsSlice ((encodeToks rest).take (bud + c.length))
          (((encodeToks d2.dropLast).length : Nat) : Int)
          ((((encodeToks rest).take (bud + c.length)).length : Nat) : Int) = encodeTok u := by
        rw [hdropL, hremdrop (encodeToks d2i).length hencd2i]
        rw [htake, List.append_nil, hd2dec, encodeToks_append, List.drop_left]
        simp [encodeToks]
      right
      refine ⟨(refRun s.core d2).1, _, done ++ d2i, by rw [htr]; exact transformLoop_ok hloop,
        ?_, Or.inr ⟨u, (encodeTok u).length, p2, cC, ?_, htagu, ?_, ?_, ?_, le_refl _,
          ?_, ?_, ?_, ?_⟩, rfl⟩
      · -- emissions bookkeeping
        rw [refRun_app_ok d2i hc']
        dsimp only
        congr 1
        rw [hEQ d2i ⟨u :: p2, by rw [hsp, hd2dec]; simp⟩]
        rw [hd2dec, refRun_app_ok [u] hmid]
        dsimp only
        rw [hrunu1, List.append_nil]
      · -- stream decomposition
        rw [htoks, hsp, hd2dec]
        simp
      · -- reference run over done ++ d2i ++ [u]
        rw [List.append_assoc, ← hd2dec]
        exact hcoreD
      · -- the stored core
        dsimp only
        rw [hflageq]
      · -- header within the token
        obtain ⟨hui, hus, _⟩ := hwu
        simp [encodeTok]
      · -- stored length
        dsimp only
        rw [hslen, encodeToks_append]
        push_cast [List.length_append]
        omega
      · -- skip target
        show Option.or (some _) none = _
        simp only [Option.or]
        congr 1
        rw [hscount, encodeToks_append]
        push_cast [List.length_append]
        omega
      · -- count + remainder length
        dsimp only
        rw [hremU]
        simp only [Option.getD_some]
        rw [hscount, hslen, hdropL]
        push_cast
        omega
      · -- count nonnegative
        dsimp only
        rw [hscount, hdropL]
        positivity
    · -- the loop comes to rest inside (or exactly at the end of) the next token
      rw [if_neg hflush] at hloop
      have htakep2 : (encodeToks p2).take suf2.length = suf2 := by
        rw [← hpref]
        exact List.take_left ..
      have hencd2le : (encodeToks d2).length ≤ bud + c.length := by omega
      have hremC : jsSlice ((encodeToks rest).take (bud + c.length))
          (((encodeToks d2).length : Nat) : Int)
          ((((encodeToks rest).take (bud + c.length)).length : Nat) : Int) = suf2 := by
        rw [hremdrop (encodeToks d2).length hencd2le, htake, List.drop_left]
      cases hp2c : p2 with
      | nil =>
        have hsufe : suf2 = [] := hpe2 hp2c
        rw [hsufe] at hmin'
        simp only [List.length_nil, Nat.add_zero] at hmin'
        rw [hp2c] at hloop hflag2
        simp only [tokStall] at hloop
        right
        refine ⟨(refRun s.core d2).1, _, done ++ d2,
          by rw [htr]; exact transformLoop_ok hloop, hemsD,
          Or.inl ⟨0, [], cC, by rw [htoks, hsp, hp2c]; simp, hcoreD, rfl, hflag2,
            ?_, ?_, rfl, Or.inl ?_⟩, rfl⟩
        · dsimp only
          rw [hslen, encodeToks_append]
          push_cast [List.length_append]
          omega
        · dsimp only
          rw [hscount, encodeToks_append]
          push_cast [List.length_append]
          omega
        · dsimp only
          rw [hremC, hsufe]
          simp [encodeToks]
      | cons u us =>
        rw [hp2c] at hloop hflag2
        simp only [tokStall] at hloop
        have hwu : WfTok u := hwp2 u (by rw [hp2c]; simp)
        have hbq : suf2.length < (encodeTok u).length := hpp2 u us hp2c
        by_cases hidc : u.id.length ≤ suf2.length
        · by_cases hgate : cF2.ebmlFound = false ∧ u.id ≠ ebmlId
          · rw [if_pos hidc, if_pos hgate] at hloop
            left
            refine ⟨(refRun s.core d2).1, .missingHeader,
              by rw [htr]; exact transformLoop_error hloop, ?_⟩
            have heqc : cF2 = cC := flagOk_gate_fail hflag2 hgate.1
            have hgC : cC.ebmlFound = false ∧ u.id ≠ ebmlId := by
              rw [← heqc]
              exact hgate
            have hse : refStep cC u = .error .missingHeader := by
              simp only [refStep]
              rw [if_pos hgC]
            rw [htoks, hsp, refRun_app_ok (d2 ++ p2) hc']
            dsimp only
            rw [refRun_app_ok p2 hCC2]
            dsimp only
            rw [hp2c, refRun_head_error hse]
            dsimp only
            rw [List.append_nil, hCC1]
          · rw [if_pos hidc, if_neg hgate] at hloop
            have hgC : ¬ (cC.ebmlFound = false ∧ u.id ≠ ebmlId) := flagOk_gate hflag2 hgate
            by_cases hskip2 : TAGS u.id = none ∧ u.id.length + u.sizeBytes.length ≤ suf2.length
            · rw [if_pos hskip2] at hloop
              right
              refine ⟨(refRun s.core d2).1, _, done ++ d2,
                by rw [htr]; exact transformLoop_ok hloop, hemsD,
                Or.inr ⟨u, suf2.length, us, coreFlag cC, by rw [htoks, hsp, hp2c]; simp,
                  hskip2.1, ?_, ?_, hskip2.2, by omega, ?_, ?_, ?_, ?_⟩, rfl⟩
              · rw [refRun_app_ok [u] hcoreD]
                dsimp only
                rw [refRun, refStep_unknown hskip2.1 hgC]
                simp [refRun]
              · dsimp only
                exact flagOk_coreFlag hflag2
              · dsimp only
                rw [hslen, encodeToks_append]
                push_cast [List.length_append]
                omega
              · show Option.or (some _) none = _
                simp only [Option.or]
                congr 1
                rw [hscount, encodeToks_append]
                push_cast [List.length_append]
                omega
              · dsimp only
                rw [hremC]
                simp only [Option.getD_some]
                rw [hscount, hslen]
                push_cast
                omega
              · dsimp only
                rw [hscount]
                positivity
            · rw [if_neg hskip2] at hloop
              right
              refine ⟨(refRun s.core d2).1, _, done ++ d2,
                by rw [htr]; exact transformLoop_ok hloop, hemsD,
                Or.inl ⟨suf2.length, u :: us, cC, by rw [htoks, hsp, hp2c]; simp, hcoreD,
                  ⟨hbq, ?_⟩, ?_, ?_, ?_, rfl, Or.inl ?_⟩, rfl⟩
              · intro htn
                by_contra hcon
                push_neg at hcon
                exact hskip2 ⟨htn, hcon⟩
              · dsimp only
                rw [flagOk_coreFlag hflag2]
                exact flagOk_then hgC
              · dsimp only
                rw [hslen, encodeToks_append]
                push_cast [List.length_append]
                omega
              · dsimp only
                rw [hscount, encodeToks_append]
                push_cast [List.length_append]
                omega
              · dsimp only
                rw [hremC, ← hp2c, htakep2]
        · rw [if_neg hidc] at hloop
          push_neg at hidc
          right
          refine ⟨(refRun s.core d2).1, _, done ++ d2,
            by rw [htr]; exact transformLoop_ok hloop, hemsD,
            Or.inl ⟨suf2.length, u :: us, cC, by rw [htoks, hsp, hp2c]; simp, hcoreD,
              ⟨hbq, fun _ => by omega⟩, hflag2, ?_, ?_, rfl, Or.inl ?_⟩, rfl⟩
          · dsimp only
            rw [hslen, encodeToks_append]
            push_cast [List.length_append]
            omega
          · dsimp only
            rw [hscount, encodeToks_append]
            push_cast [List.length_append]
            omega
          · dsimp only
            rw [hremC, ← hp2c, htakep2]


theorem transform_skip_stay {s : DemuxState} (c : List Nat) {t : Int}
    (hskip : s.skipUntil = some t) (ht : t ≠ 0)
    (hle : ¬ (s.length + (c.length : Int) > t)) :
    transform s c = ([], .ok
      { remainder := none
        length := s.length + (c.length : Int)
        count := s.count + (((match s.remainder with | some r => r ++ c | none => c).length : Nat) : Int)
        skipUntil := some t
        core := s.core }) := by
  unfold transform
  rw [hskip]
  dsimp only
  rw [if_pos ht, if_neg hle]

theorem transform_skip_resume {s : DemuxState} (c : List Nat) {t : Int}
    (hskip : s.skipUntil = some t) (ht : t ≠ 0)
    (hgt : s.length + (c.length : Int) > t) :
    transform s c = transformLoop s.core
      (match s.remainder with | some r => r ++ c | none => c) (t - s.count) s.count
      (s.length + (c.length : Int)) none := by
  unfold transform
  rw [hskip]
  dsimp only
  rw [if_pos ht, if_pos hgt]


/-- One `_transform` call from a skipping-mode invariant state. -/
theorem transform_stepS {toks : List Tok} {s : DemuxState} {done : List Tok} {u : Tok}
    {bud : Nat} {c future : List Nat}
    (hwt : ∀ t ∈ toks, WfTok t)
    (hinv : InvS toks s done u bud)
    (hfut : (encodeToks toks).drop s.length.toNat = c ++ future) :
    StepOut toks done c s := by
  obtain ⟨rest', c', htoks, htagu, hrunu, hcore, hhdr, hbudE, hslen, hskip, hcnt, hcnt0⟩ := hinv
  have hwu : WfTok u := hwt u (by rw [htoks]; simp)
  have hwrest : ∀ x ∈ rest', WfTok x := fun x hx => hwt x (by rw [htoks]; simp [hx])
  have hE2 : 2 ≤ (encodeTok u).length := by
    obtain ⟨hui, hus, _⟩ := hwu
    simp [encodeTok]
    omega
  have htne : ((((encodeToks done).length + (encodeTok u).length : Nat)) : Int) ≠ 0 := by
    push_cast
    omega
  obtain ⟨cD, hD, hstepD⟩ :
      ∃ cD, (refRun initState.core done).2 = .ok cD ∧ refStep cD u = .ok (c', none) := by
    cases hD : (refRun initState.core done).2 with
    | error e =>
      rw [refRun_app_error [u] hD] at hrunu
      exact Except.noConfusion hrunu
    | ok cD =>
      have hrunu' := hrunu
      rw [refRun_app_ok [u] hD] at hrunu'
      dsimp only at hrunu'
      by_cases hgu : cD.ebmlFound = false ∧ u.id ≠ ebmlId
      · have hse : refStep cD u = .error .missingHeader := by
          simp only [refStep]
          rw [if_pos hgu]
        rw [refRun_head_error hse] at hrunu'
        exact Except.noConfusion hrunu'
      · have hstepD : refStep cD u = .ok (coreFlag cD, none) := by
          simp only [refStep]
          rw [if_neg hgu, htagu]
        rw [refRun, hstepD] at hrunu'
        simp [refRun] at hrunu'
        exact ⟨cD, rfl, by rw [hstepD, hrunu']⟩
  have hemsU : (refRun initState.core (done ++ [u])).1 = (refRun initState.core done).1 := by
    rw [refRun_app_ok [u] hD]
    dsimp only
    rw [refRun, hstepD]
    simp [refRun]
  have hslenNat : s.length.toNat = (encodeToks done).length + bud := by
    rw [hslen]
    omega
  have htokenc : encodeToks toks = (encodeToks done ++ encodeTok u) ++ encodeToks rest' := by
    rw [htoks, encodeToks_append, encodeToks_cons, ← List.append_assoc]
  have hchunkform : (match s.remainder with | some r => r ++ c | none => c)
      = (s.remainder.getD []) ++ c := by
    cases s.remainder <;> rfl
  by_cases hstay : s.length + (c.length : Int)
      > ((((encodeToks done).length + (encodeTok u).length : Nat)) : Int)
  · -- the new chunk reaches past the skip target: resume parsing there
    have hgtN : (encodeTok u).length < bud + c.length := by
      rw [hslen] at hstay
      push_cast at hstay
      omega
    have hremlen : s.count + (((s.remainder.getD []).length : Nat) : Int)
        = (((encodeToks done).length + bud : Nat) : Int) := by
      rw [← hslen]
      exact hcnt
    have ho0 : 0 ≤ ((((encodeToks done).length + (encodeTok u).length : Nat)) : Int)
        - s.count := by
      push_cast at hremlen ⊢
      omega
    have hoNat : (((((encodeToks done).length + (encodeTok u).length : Nat)) : Int)
        - s.count).toNat
        = (s.remainder.getD []).length + ((encodeTok u).length - bud) := by
      push_cast at hremlen
      omega
    have hkc : (encodeTok u).length - bud ≤ c.length := by omega
    have hdropO : List.drop ((((((encodeToks done).length + (encodeTok u).length : Nat)) : Int)
        - s.count).toNat) ((s.remainder.getD []) ++ c)
        = c.drop ((encodeTok u).length - bud) := by
      rw [hoNat, List.drop_append]
    have hcdrop : c.drop ((encodeTok u).length - bud) ++ future = encodeToks rest' := by
      have h := congrArg (List.drop ((encodeTok u).length - bud)) hfut
      rw [hslenNat, List.drop_drop, List.drop_append_of_le_length hkc] at h
      rw [← h, htokenc]
      rw [show (encodeToks done).length + bud + ((encodeTok u).length - bud)
          = (encodeToks done ++ encodeTok u).length from by
        simp only [List.length_append]
        omega]
      rw [List.drop_left]
    have hM : (c.drop ((encodeTok u).length - bud)).length
        = bud + c.length - (encodeTok u).length := by
      rw [List.length_drop]
      omega
    have hMle : bud + c.length - (encodeTok u).length ≤ (encodeToks rest').length := by
      have h := congrArg List.length hcdrop
      simp at h
      omega
    have hcdrope : c.drop ((encodeTok u).length - bud)
        = (encodeToks rest').take (bud + c.length - (encodeTok u).length) := by
      rw [← hcdrop, ← hM]
      exact (List.take_left ..).symm
    obtain ⟨d2, p2, suf2, hsp, htake, hpref, hpe2, hpp2, hmin⟩ :=
      streamSplit rest' (bud + c.length - (encodeTok u).length) hwrest
    have hmin' : (encodeToks d2).length + suf2.length
        = bud + c.length - (encodeTok u).length := by
      rw [hmin]
      omega
    have hlenDD : (encodeToks ((done ++ [u]) ++ d2)).length
        = (encodeToks done).length + (encodeTok u).length + (encodeToks d2).length := by
      rw [encodeToks_append, encodeToks_append]
      simp only [List.length_append]
      rw [show (encodeToks [u]).length = (encodeTok u).length from by simp [encodeToks]]
    have hd0 : List.drop ((((((encodeToks done).length + (encodeTok u).length : Nat)) : Int)
        - s.count).toNat) ((s.remainder.getD []) ++ c) = encodeToks d2 ++ suf2 := by
      rw [hdropO, hcdrope, htake]
    have hd0' : List.drop ((s.remainder.getD []).length + ((encodeTok u).length - bud))
        ((s.remainder.getD []) ++ c) = encodeToks d2 ++ suf2 := by
      rw [← hoNat]
      exact hd0
    have hwd2 : ∀ t ∈ d2, WfTok t := fun t ht => hwrest t (by rw [hsp]; simp [ht])
    have hwp2 : ∀ t ∈ p2, WfTok t := fun t ht => hwrest t (by rw [hsp]; simp [ht])
    have hchunkWlen : (((s.remainder.getD []) : List Nat) ++ c).length
        = (s.remainder.getD []).length + c.length := by
      simp
    have hfuel : d2.length < (((s.remainder.getD []) : List Nat) ++ c).length + 1 := by
      have h1 := tokens_length_le hwd2
      omega
    have hlenO : (((((encodeToks done).length + (encodeTok u).length : Nat)) : Int)
        - s.count).toNat ≤ (((s.remainder.getD []) : List Nat) ++ c).length := by
      omega
    have hremdrop2 : ∀ (j : Nat), j ≤ bud + c.length - (encodeTok u).length →
        jsSlice ((s.remainder.getD []) ++ c)
          (((((encodeToks done).length + (encodeTok u).length : Nat)) : Int) - s.count
            + (j : Int))
          (((((s.remainder.getD []) : List Nat) ++ c).length : Nat) : Int)
        = (encodeToks d2 ++ suf2).drop j := by
      intro j hj
      have hlen2 : (encodeToks d2 ++ suf2).length
          = bud + c.length - (encodeTok u).length := by
        simp only [List.length_append]
        omega
      rw [jsSlice_to_end (by omega) (by omega)]
      rw [show ((((((encodeToks done).length + (encodeTok u).length : Nat)) : Int) - s.count
          + (j : Int)).toNat)
          = ((s.remainder.getD []).length + ((encodeTok u).length - bud)) + j from by omega]
      rw [← List.drop_drop, hd0']
    have htr : transform s c = transformLoop c' ((s.remainder.getD []) ++ c)
        (((((encodeToks done).length + (encodeTok u).length : Nat)) : Int) - s.count) s.count
        (s.length + (c.length : Int)) none := by
      rw [transform_skip_resume c hskip htne hstay, hchunkform, hcore]
    have hrunD2 : refRun initState.core ((done ++ [u]) ++ d2)
        = ((refRun initState.core (done ++ [u])).1 ++ (refRun c' d2).1, (refRun c' d2).2) :=
      refRun_app_ok d2 hrunu
    cases hres2 : (refRun c' d2).2 with
    | error e =>
      have hloop := parseLoop_toks_error d2 c'
        (((((encodeToks done).length + (encodeTok u).length : Nat)) : Int) - s.count) s.count
        ((((s.remainder.getD []) : List Nat) ++ c).length + 1) suf2 e ho0 hlenO hd0 hwd2
        hfuel hres2
      left
      refine ⟨(refRun c' d2).1, e, by rw [htr]; exact transformLoop_error hloop, ?_⟩
      rw [show toks = (done ++ [u]) ++ (d2 ++ p2) from by rw [htoks, hsp]; simp]
      rw [refRun_app_ok (d2 ++ p2) hrunu]
      dsimp only
      rw [refRun_app_error p2 hres2]
      dsimp only
      rw [hemsU]
    | ok cF2 =>
      have hcoreD2 : (refRun initState.core ((done ++ [u]) ++ d2)).2 = .ok cF2 := by
        rw [hrunD2]
        exact hres2
      have hemsD2 : (refRun initState.core ((done ++ [u]) ++ d2)).1
          = (refRun initState.core done).1 ++ (refRun c' d2).1 := by
        rw [hrunD2]
        dsimp only
        rw [hemsU]
      have hloop := parseLoop_toks_ok d2 c'
        (((((encodeToks done).length + (encodeTok u).length : Nat)) : Int) - s.count) s.count
        ((((s.remainder.getD []) : List Nat) ++ c).length + 1) suf2
        ((encodeToks p2).drop suf2.length) p2 cF2 ho0 hcnt0 hlenO hd0 hpref hpp2 hpe2
        hwd2 hwp2 hfuel hres2
      by_cases hflush : (suf2.isEmpty && lastUnknown d2) = true
      · rw [if_pos hflush] at hloop
        have hflush' := hflush
        simp only [Bool.and_eq_true, List.isEmpty_iff] at hflush'
        obtain ⟨hsuf2e, hlastu⟩ := hflush'
        obtain ⟨d2i, u2, hd2dec, htagu2⟩ := lastUnknown_decomp hlastu
        subst hsuf2e
        simp only [List.length_nil, Nat.add_zero] at hmin'
        obtain ⟨cMid, hmid, hstepu2, hres2u⟩ :
            ∃ cMid, (refRun c' d2i).2 = .ok cMid ∧
              refStep cMid u2 = .ok (coreFlag cMid, none) ∧
              (refRun cMid [u2]).2 = .ok cF2 := by
          rw [hd2dec] at hres2
          cases hmid : (refRun c' d2i).2 with
          | error e =>
            rw [refRun_app_error [u2] hmid] at hres2
            exact Except.noConfusion hres2
          | ok cMid =>
            rw [refRun_app_ok [u2] hmid] at hres2
            dsimp only at hres2
            by_cases hgu : cMid.ebmlFound = false ∧ u2.id ≠ ebmlId
            · have hse : refStep cMid u2 = .error .missingHeader := by
                simp only [refStep]
                rw [if_pos hgu]
              rw [refRun_head_error hse] at hres2
              exact Except.noConfusion hres2
            · exact ⟨cMid, rfl, by simp only [refStep]; rw [if_neg hgu, htagu2], hres2⟩
        have hrunu1 : (refRun cMid [u2]).1 = [] := by
          rw [refRun, hstepu2]
          simp [refRun]
        have hwu2 : WfTok u2 := hwd2 u2 (by rw [hd2dec]; simp)
        have hdropL : d2.dropLast = d2i := by
          rw [hd2dec, List.dropLast_concat]
        have hlenD2 : (encodeToks d2).length
            = (encodeToks d2i).length + (encodeTok u2).length := by
          rw [hd2dec, encodeToks_append]
          simp [encodeToks]
        have hlenDI : (encodeToks ((done ++ [u]) ++ d2i)).length
            = (encodeToks done).length + (encodeTok u).length + (encodeToks d2i).length := by
          rw [encodeToks_append, encodeToks_append]
          simp only [List.length_append]
          rw [show (encodeToks [u]).length = (encodeTok u).length from by simp [encodeToks]]
        have hencd2i : (encodeToks d2i).length ≤ bud + c.length - (encodeTok u).length := by
          omega
        have hremU : jsSlice ((s.remainder.getD []) ++ c)
            (((((encodeToks done).length + (encodeTok u).length : Nat)) : Int) - s.count
              + (((encodeToks d2.dropLast).length : Nat) : Int))
            (((((s.remainder.getD []) : List Nat) ++ c).length : Nat) : Int)
            = encodeTok u2 := by
          rw [hdropL, hremdrop2 (encodeToks d2i).length hencd2i]
          rw [List.append_nil, hd2dec, encodeToks_append, List.drop_left]
          simp [encodeToks]
        right
        refine ⟨(refRun c' d2).1, _, (done ++ [u]) ++ d2i,
          by rw [htr]; exact transformLoop_ok hloop, ?_,
          Or.inr ⟨u2, (encodeTok u2).length, p2, cF2, ?_, htagu2, ?_, rfl, ?_, le_refl _,
            ?_, ?_, ?_, ?_⟩, rfl⟩
        · rw [refRun_app_ok d2i hrunu]
          dsimp only
          rw [hemsU]
          congr 1
          rw [hd2dec, refRun_app_ok [u2] hmid]
          dsimp only
          rw [hrunu1, List.append_nil]
        · rw [htoks, hsp, hd2dec]
          simp
        · rw [List.append_assoc ((done ++ [u])) d2i [u2], ← hd2dec]
          exact hcoreD2
        · obtain ⟨hui2, hus2, _⟩ := hwu2
          simp [encodeTok]
        · dsimp only
          rw [hslen]
          push_cast [hlenDI]
          omega
        · show Option.or (some _) none = _
          simp only [Option.or]
          congr 1
          push_cast [hlenDI]
          omega
        · dsimp only
          rw [hremU]
          simp only [Option.getD_some]
          rw [hslen, hdropL]
          push_cast
          omega
        · dsimp only
          rw [hdropL]
          push_cast
          omega
      · rw [if_neg hflush] at hloop
        have htakep2 : (encodeToks p2).take suf2.length = suf2 := by
          rw [← hpref]
          exact List.take_left ..
        have hencd2le : (encodeToks d2).length
            ≤ bud + c.length - (encodeTok u).length := by
          omega
        have hremC : jsSlice ((s.remainder.getD []) ++ c)
            (((((encodeToks done).length + (encodeTok u).length : Nat)) : Int) - s.count
              + (((encodeToks d2).length : Nat) : Int))
            (((((s.remainder.getD []) : List Nat) ++ c).length : Nat) : Int) = suf2 := by
          rw [hremdrop2 (encodeToks d2).length hencd2le, List.drop_left]
        cases hp2c : p2 with
        | nil =>
          have hsufe : suf2 = [] := hpe2 hp2c
          rw [hsufe] at hmin'
          simp only [List.length_nil, Nat.add_zero] at hmin'
          rw [hp2c] at hloop
          simp only [tokStall] at hloop
          right
          refine ⟨(refRun c' d2).1, _, (done ++ [u]) ++ d2,
            by rw [htr]; exact transformLoop_ok hloop, hemsD2,
            Or.inl ⟨0, [], cF2, by rw [htoks, hsp, hp2c]; simp, hcoreD2, rfl, Or.inl rfl,
              ?_, ?_, rfl, Or.inl ?_⟩, rfl⟩
          · dsimp only
            rw [hslen]
            push_cast [hlenDD]
            omega
          · dsimp only
            push_cast [hlenDD]
            omega
          · dsimp only
            rw [hremC, hsufe]
            simp [encodeToks]
        | cons u2 us =>
          rw [hp2c] at hloop
          simp only [tokStall] at hloop
          have hwu2 : WfTok u2 := hwp2 u2 (by rw [hp2c]; simp)
          have hbq : suf2.length < (encodeTok u2).length := hpp2 u2 us hp2c
          by_cases hidc : u2.id.length ≤ suf2.length
          · by_cases hgate : cF2.ebmlFound = false ∧ u2.id ≠ ebmlId
            · rw [if_pos hidc, if_pos hgate] at hloop
              left
              refine ⟨(refRun c' d2).1, .missingHeader,
                by rw [htr]; exact transformLoop_error hloop, ?_⟩
              have hse : refStep cF2 u2 = .error .missingHeader := by
                simp only [refStep]
                rw [if_pos hgate]
              rw [show toks = (done ++ [u]) ++ (d2 ++ p2) from by rw [htoks, hsp]; simp]
              rw [refRun_app_ok (d2 ++ p2) hrunu]
              dsimp only
              rw [refRun_app_ok p2 hres2]
              dsimp only
              rw [hp2c, refRun_head_error hse]
              dsimp only
              rw [List.append_nil, hemsU]
            · rw [if_pos hidc, if_neg hgate] at hloop
              by_cases hskip2 : TAGS u2.id = none
                  ∧ u2.id.length + u2.sizeBytes.length ≤ suf2.length
              · rw [if_pos hskip2] at hloop
                right
                refine ⟨(refRun c' d2).1, _, (done ++ [u]) ++ d2,
                  by rw [htr]; exact transformLoop_ok hloop, hemsD2,
                  Or.inr ⟨u2, suf2.length, us, coreFlag cF2,
                    by rw [htoks, hsp, hp2c]; simp, hskip2.1, ?_, rfl, hskip2.2,
                    by omega, ?_, ?_, ?_, ?_⟩, rfl⟩
                · rw [refRun_app_ok [u2] hcoreD2]
                  dsimp only
                  rw [refRun, refStep_unknown hskip2.1 hgate]
                  simp [refRun]
                · dsimp only
                  rw [hslen]
                  push_cast [hlenDD]
                  omega
                · show Option.or (some _) none = _
                  simp only [Option.or]
                  congr 1
                  push_cast [hlenDD]
                  omega
                · dsimp only
                  rw [hremC]
                  simp only [Option.getD_some]
                  rw [hslen]
                  push_cast
                  omega
                · dsimp only
                  omega
              · rw [if_neg hskip2] at hloop
                right
                refine ⟨(refRun c' d2).1, _, (done ++ [u]) ++ d2,
                  by rw [htr]; exact transformLoop_ok hloop, hemsD2,
                  Or.inl ⟨suf2.length, u2 :: us, cF2, by rw [htoks, hsp, hp2c]; simp,
                    hcoreD2, ⟨hbq, ?_⟩, ?_, ?_, ?_, rfl, Or.inl ?_⟩, rfl⟩
                · intro htn
                  by_contra hcon
                  push_neg at hcon
                  exact hskip2 ⟨htn, hcon⟩
                · dsimp only
                  exact flagOk_then hgate
                · dsimp only
                  rw [hslen]
                  push_cast [hlenDD]
                  omega
                · dsimp only
                  push_cast [hlenDD]
                  omega
                · dsimp only
                  rw [hremC, ← hp2c, htakep2]
          · rw [if_neg hidc] at hloop
            push_neg at hidc
            right
            refine ⟨(refRun c' d2).1, _, (done ++ [u]) ++ d2,
              by rw [htr]; exact transformLoop_ok hloop, hemsD2,
              Or.inl ⟨suf2.length, u2 :: us, cF2, by rw [htoks, hsp, hp2c]; simp,
                hcoreD2, ⟨hbq, fun _ => by omega⟩, Or.inl rfl, ?_, ?_, rfl, Or.inl ?_⟩,
              rfl⟩
            · dsimp only
              rw [hslen]
              push_cast [hlenDD]
              omega
            · dsimp only
              push_cast [hlenDD]
              omega
            · dsimp only
              rw [hremC, ← hp2c, htakep2]
  · -- the chunk stays within the skipped region: just account for the bytes
    right
    refine ⟨[], _, done, transform_skip_stay c hskip htne hstay, by simp,
      Or.inr ⟨u, bud + c.length, rest', c', htoks, htagu, hrunu, hcore, by omega, ?_,
        ?_, rfl, ?_, ?_⟩, rfl⟩
    · rw [hslen] at hstay
      push_cast at hstay
      omega
    · dsimp only
      rw [hslen]
      push_cast
      omega
    · dsimp only
      rw [hchunkform]
      simp only [Option.getD_none, List.length_nil, List.length_append]
      push_cast
      push_cast at hcnt
      omega
    · dsimp only
      have := hcnt0
      positivity


theorem refRun_unknown_app {done : List Tok} {u : Tok} {c' : Core}
    (htagu : TAGS u.id = none)
    (hrunu : (refRun initState.core (done ++ [u])).2 = .ok c') :
    (refRun initState.core (done ++ [u])).1 = (refRun initState.core done).1 := by
  cases hD : (refRun initState.core done).2 with
  | error e =>
    rw [refRun_app_error [u] hD] at hrunu
    exact Except.noConfusion hrunu
  | ok cD =>
    rw [refRun_app_ok [u] hD]
    dsimp only
    rw [refRun_app_ok [u] hD] at hrunu
    dsimp only at hrunu
    by_cases hgu : cD.ebmlFound = false ∧ u.id ≠ ebmlId
    · have hse : refStep cD u = .error .missingHeader := by
        simp only [refStep]
        rw [if_pos hgu]
      rw [refRun_head_error hse] at hrunu
      exact Except.noConfusion hrunu
    · have hstepD : refStep cD u = .ok (coreFlag cD, none) := by
        simp only [refStep]
        rw [if_neg hgu, htagu]
      rw [refRun, hstepD]
      simp [refRun]

/-- Feeding successive chunks from a state that satisfies one of the two
invariants reproduces exactly the reference emissions of the whole stream. -/
theorem runChunks_sim {toks : List Tok} (hwt : ∀ t ∈ toks, WfTok t) :
    ∀ (chunks : List (List Nat)) (s : DemuxState) (done : List Tok),
    ((∃ bud, InvP toks s done bud) ∨ (∃ u bud, InvS toks s done u bud)) →
    chunks.flatten = (encodeToks toks).drop s.length.toNat →
    (refRun initState.core done).1 ++ (runChunks s chunks).1 = (refRun initState.core toks).1
  | [], s, done, hinv, hflat => by
    have hlenle : (encodeToks toks).length ≤ s.length.toNat := by
      have h := congrArg List.length hflat
      simp at h
      omega
    rcases hinv with ⟨bud, rest, c', htoks, hc', hstall, hflag, hslen, hscount, hskip, hrem⟩
      | ⟨u, bud, rest', c', htoks, htagu, hrunu, hcore, hhdr, hbudE, hslen, hskip, hcnt, hcnt0⟩
    · have hslenNat : s.length.toNat = (encodeToks done).length + bud := by
        rw [hslen]
        omega
      have hlenc : (encodeToks toks).length
          = (encodeToks done).length + (encodeToks rest).length := by
        rw [htoks, encodeToks_append]
        simp
      cases hrest : rest with
      | nil =>
        rw [hrest] at htoks
        rw [List.append_nil] at htoks
        rw [runChunks]
        dsimp only
        rw [List.append_nil, htoks]
      | cons t ts =>
        exfalso
        rw [hrest] at hstall
        unfold StallShape at hstall
        have h1 := hstall.1
        have h2 : (encodeTok t).length ≤ (encodeToks rest).length := by
          rw [hrest, encodeToks_cons]
          simp only [List.length_append]
          omega
        omega
    · have hslenNat : s.length.toNat = (encodeToks done).length + bud := by
        rw [hslen]
        omega
      have hlenc : (encodeToks toks).length = (encodeToks done).length
          + (encodeTok u).length + (encodeToks rest').length := by
        rw [htoks, encodeToks_append, encodeToks_cons]
        simp
        omega
      have hrest' : rest' = [] := by
        cases hr : rest' with
        | nil => rfl
        | cons a l =>
          exfalso
          have hwa : WfTok a := hwt a (by rw [htoks, hr]; simp)
          have h1 := encodeTok_len_pos hwa
          have h2 : (encodeTok a).length ≤ (encodeToks rest').length := by
            rw [hr, encodeToks_cons]
            simp only [List.length_append]
            omega
          omega
      rw [hrest'] at htoks
      rw [runChunks]
      dsimp only
      rw [List.append_nil, htoks]
      exact (refRun_unknown_app htagu (by rw [← htoks]; rw [htoks]; exact hrunu)).symm
  | c :: cs, s, done, hinv, hflat => by
    have hsl0 : 0 ≤ s.length := by
      rcases hinv with ⟨bud, rest, c', h1, h2, h3, h4, hslen, h6, h7, h8⟩
        | ⟨u, bud, rest', c', h1, h2, h3, h4, h5, h6, hslen, h8, h9, h10⟩ <;>
        rw [hslen] <;> positivity
    have hflat' : (encodeToks toks).drop s.length.toNat = c ++ cs.flatten := by
      rw [← hflat]
      simp
    have hstep : StepOut toks done c s := by
      rcases hinv with ⟨bud, hinvP⟩ | ⟨u, bud, hinvS⟩
      · exact transform_stepP hwt hinvP hflat'
      · exact transform_stepS hwt hinvS hflat'
    rcases hstep with ⟨ems, e, htre, hemseq⟩ | ⟨ems, s2, done2, htre, hems2, hinv2, hlen2⟩
    · rw [runChunks, htre]
      exact hemseq
    · rw [runChunks, htre]
      dsimp only
      rw [← List.append_assoc, ← hems2]
      refine runChunks_sim hwt cs s2 done2 hinv2 ?_
      have htn : s2.length.toNat = s.length.toNat + c.length := by
        rw [hlen2]
        omega
      rw [htn]
      rw [← List.drop_drop, hflat']
      rw [List.drop_left]

/-- C1.  For every well-formed token stream and every chunking of its byte
encoding, feeding the chunks one at a time emits exactly the same payload
sequence as feeding the whole encoding as a single chunk. -/
theorem c1_chunking_invariance (toks : List Tok) (chunks : List (List Nat))
    (hwt : ∀ t ∈ toks, WfTok t)
    (hflat : chunks.flatten = encodeToks toks) :
    (runChunks initState chunks).1 = (runChunks initState [encodeToks toks]).1 := by
  have hinv0 : InvP toks initState [] 0 := by
    refine ⟨toks, initState.core, by simp, by simp [refRun], ?_, Or.inl rfl,
      by simp [initState, encodeToks], by simp [initState, encodeToks], rfl,
      Or.inr ⟨rfl, rfl⟩⟩
    cases htoks : toks with
    | nil => rfl
    | cons t ts =>
      have hwt1 : WfTok t := hwt t (by rw [htoks]; simp)
      refine ⟨encodeTok_len_pos hwt1, fun _ => ?_⟩
      obtain ⟨hui, hus, _⟩ := hwt1
      omega
  have h1 := runChunks_sim hwt chunks initState [] (Or.inl ⟨0, hinv0⟩)
    (by simpa [initState] using hflat)
  have h2 := runChunks_sim hwt [encodeToks toks] initState [] (Or.inl ⟨0, hinv0⟩)
    (by simp [initState])
  simp only [refRun, List.nil_append] at h1 h2
  rw [h1, h2]

/-- Closed witness for C1: a four-tag stream (EBML header, track number,
track type, one SimpleBlock) cut at boundaries that split tag headers and
payloads. -/
theorem c1_chunking_invariance_witness :
    (∀ t ∈ [(⟨[0x1a, 0x45, 0xdf, 0xa3], [0x80], []⟩ : Tok),
        ⟨[0xd7], [0x81], [0x03]⟩, ⟨[0x83], [0x81], [0x02]⟩,
        ⟨[0xa3], [0x85], [0x83, 0x00, 0x00, 0x00, 0xBB]⟩], WfTok t) ∧
    ([[0x1a, 0x45, 0xdf], [0xa3, 0x80, 0xd7, 0x81], [0x03, 0x83, 0x81, 0x02, 0xa3],
        [0x85, 0x83, 0x00, 0x00], [0x00, 0xBB]] : List (List Nat)).flatten
      = encodeToks [⟨[0x1a, 0x45, 0xdf, 0xa3], [0x80], []⟩, ⟨[0xd7], [0x81], [0x03]⟩,
          ⟨[0x83], [0x81], [0x02]⟩, ⟨[0xa3], [0x85], [0x83, 0x00, 0x00, 0x00, 0xBB]⟩] ∧
    (runChunks initState [[0x1a, 0x45, 0xdf], [0xa3, 0x80, 0xd7, 0x81],
        [0x03, 0x83, 0x81, 0x02, 0xa3], [0x85, 0x83, 0x00, 0x00], [0x00, 0xBB]]).1
      = (runChunks initState [encodeToks [⟨[0x1a, 0x45, 0xdf, 0xa3], [0x80], []⟩,
          ⟨[0xd7], [0x81], [0x03]⟩, ⟨[0x83], [0x81], [0x02]⟩,
          ⟨[0xa3], [0x85], [0x83, 0x00, 0x00, 0x00, 0xBB]⟩]]).1 :=
  ⟨by decide, by decide, c1_chunking_invariance _ _ (by decide) (by decide)⟩


/-- C7.  Once the EBML header has been seen, a fully buffered
codec-signature leaf (`'63a2'`) whose first eight payload bytes differ from
`OpusHead` makes `_readTag` throw the unsupported-codec error — for every
core state, in particular regardless of whether `_track` is already set. -/
theorem c7_codec_signature {core : Core} {chunk : List Nat} {o count : Int} {t : Tok}
    {rest : List Nat}
    (ho : 0 ≤ o) (hlen : o.toNat ≤ chunk.length)
    (hd : List.drop o.toNat chunk = encodeTok t ++ rest)
    (hwf : WfTok t) (hid : t.id = [0x63, 0xa2])
    (hfound : core.ebmlFound = true)
    (hmagic : jsSlice t.data 0 8 ≠ OPUS_HEAD) :
    readTag core chunk o count = .error .unsupportedCodec := by
  have h := @readTag_token core chunk o count t _ ho hlen hd hwf
  have hstep : refStep core t = .error .unsupportedCodec := by
    simp only [refStep]
    rw [if_neg (by rw [hfound]; simp)]
    rw [hid]
    rw [show TAGS [0x63, 0xa2] = some false from rfl]
    unfold leafEffect
    rw [if_pos rfl, if_pos hmagic]
  rw [hstep] at h
  dsimp only at h
  exact h

/-- Closed witness for C7: a signature tag whose payload starts with eight
wrong bytes, read from a state that has already discovered a track. -/
theorem c7_codec_signature_witness :
    (0 : Int).toNat ≤ ([0x63, 0xa2, 0x88, 1, 2, 3, 4, 5, 6, 7, 8] : List Nat).length ∧
    WfTok ⟨[0x63, 0xa2], [0x88], [1, 2, 3, 4, 5, 6, 7, 8]⟩ ∧
    smallTrackCore.ebmlFound = true ∧
    jsSlice ([1, 2, 3, 4, 5, 6, 7, 8] : List Nat) 0 8 ≠ OPUS_HEAD ∧
    readTag smallTrackCore [0x63, 0xa2, 0x88, 1, 2, 3, 4, 5, 6, 7, 8] 0 0
      = .error .unsupportedCodec :=
  ⟨by decide, by decide, by decide, by decide,
    @c7_codec_signature smallTrackCore [0x63, 0xa2, 0x88, 1, 2, 3, 4, 5, 6, 7, 8] 0 0
      ⟨[0x63, 0xa2], [0x88], [1, 2, 3, 4, 5, 6, 7, 8]⟩ []
      (by decide) (by decide) (by decide) (by decide) rfl (by decide) (by decide)⟩

/-- C8.  A fully buffered SimpleBlock (`'a3'`) processed while no track has
been discovered — and while the staged track-entry fields cannot promote one
(no reachable state has a complete staged pair with `_track` still unset) —
makes `_readTag` throw the no-audio-track error; an error return carries no
emission, so nothing is pushed for the block. -/
theorem c8_block_without_track {core : Core} {chunk : List Nat} {o count : Int} {t : Tok}
    {rest : List Nat}
    (ho : 0 ≤ o) (hlen : o.toNat ≤ chunk.length)
    (hd : List.drop o.toNat chunk = encodeTok t ++ rest)
    (hwf : WfTok t) (hid : t.id = [0xa3])
    (hfound : core.ebmlFound = true)
    (htrack : core.track = none)
    (hstage : ¬ (core.incompleteType = some 2 ∧ core.incompleteNumber.isSome)) :
    readTag core chunk o count = .error .noAudioTrack := by
  have h := @readTag_token core chunk o count t _ ho hlen hd hwf
  have hcf : coreFlag core = core := by
    unfold coreFlag
    rw [if_pos hfound]
  have hdt : discoverTrack core [0xa3] t.data = core := by
    unfold discoverTrack
    rw [if_pos htrack]
    dsimp only
    rw [if_neg (show ¬ ([0xa3] : List Nat) = [0xae] from by decide)]
    rw [if_neg (show ¬ ([0xa3] : List Nat) = [0xd7] from by decide)]
    rw [if_neg (show ¬ ([0xa3] : List Nat) = [0x83] from by decide)]
    rw [if_neg hstage]
  have hstep : refStep core t = .error .noAudioTrack := by
    simp only [refStep]
    rw [if_neg (by rw [hfound]; simp)]
    rw [hid]
    rw [show TAGS [0xa3] = some false from rfl]
    unfold leafEffect
    rw [hcf, hdt]
    rw [if_neg (show ¬ ([0xa3] : List Nat) = [0x63, 0xa2] from by decide)]
    rw [if_pos rfl, htrack]
  rw [hstep] at h
  dsimp only at h
  exact h

/-- Closed witness for C8: a SimpleBlock read right after the EBML header,
before any track-entry fields have been seen. -/
theorem c8_block_without_track_witness :
    WfTok ⟨[0xa3], [0x85], [0x83, 0, 0, 0, 0x42]⟩ ∧
    ({ ebmlFound := true, incompleteNumber := none, incompleteType := none, track := none } : Core).track = none ∧
    readTag { ebmlFound := true, incompleteNumber := none, incompleteType := none, track := none } [0xa3, 0x85, 0x83, 0, 0, 0, 0x42] 0 0 = .error .noAudioTrack :=
  ⟨by decide, by decide,
    @c8_block_without_track { ebmlFound := true, incompleteNumber := none, incompleteType := none, track := none }
      [0xa3, 0x85, 0x83, 0, 0, 0, 0x42] 0 0 ⟨[0xa3], [0x85], [0x83, 0, 0, 0, 0x42]⟩ []
      (by decide) (by decide) (by decide) (by decide) rfl rfl rfl (by decide)⟩

/-- C3.  The skip discipline, in three parts.  (1) An unknown tag whose
header is buffered but whose declared payload runs past the buffered data
makes `_readTag` report the single absolute skip target `count + offset +
dataLength` (the tag's absolute end) and no emission; the loop then breaks,
so at most the one target held in `_skipUntil` is ever active.  (2) While
the cumulative length has not passed the target, `_transform` only counts
the bytes: it emits nothing, parses no tag (the core is unchanged) and
keeps the same target.  (3) The first chunk that passes the target re-enters
the parse loop at buffer offset `target - count`, i.e. exactly at absolute
stream position `target`. -/
theorem c3_skip_target :
    (∀ (core : Core) (chunk : List Nat) (o count : Int) (t : Tok) (suf q tailEnc : List Nat),
      0 ≤ o → o.toNat ≤ chunk.length → List.drop o.toNat chunk = suf →
      suf ++ q = encodeTok t ++ tailEnc → WfTok t →
      t.id.length + t.sizeBytes.length ≤ suf.length → suf.length < (encodeTok t).length →
      ¬ (core.ebmlFound = false ∧ t.id ≠ ebmlId) → TAGS t.id = none →
      readTag core chunk o count =
        .ok (.step (coreFlag core) (o + ((t.id.length + t.sizeBytes.length : Nat) : Int))
          (some (count + o + (((encodeTok t).length : Nat) : Int))) none)) ∧
    (∀ (s : DemuxState) (c : List Nat) (T : Int), s.skipUntil = some T → T ≠ 0 →
      ¬ (s.length + (c.length : Int) > T) →
      (transform s c).1 = [] ∧
        ∃ s2, (transform s c).2 = .ok s2 ∧ s2.skipUntil = some T ∧ s2.core = s.core) ∧
    (∀ (s : DemuxState) (c : List Nat) (T : Int), s.skipUntil = some T → T ≠ 0 →
      s.length + (c.length : Int) > T →
      transform s c = transformLoop s.core
        (match s.remainder with | some r => r ++ c | none => c) (T - s.count) s.count
        (s.length + (c.length : Int)) none) := by
  refine ⟨?_, ?_, ?_⟩
  · intro core chunk o count t suf q tailEnc ho hlen hd hq hwf hge hshort hgate htag
    exact readTag_partial_skip ho hlen hd hq hwf hge hshort hgate htag
  · intro s c T hskip ht hle
    rw [transform_skip_stay c hskip ht hle]
    exact ⟨rfl, _, rfl, rfl, rfl⟩
  · intro s c T hskip ht hgt
    exact transform_skip_resume c hskip ht hgt

/-- Closed witness for C3: the three parts applied to a concrete unknown
tag (`[0xec]`, four declared payload bytes, only the header buffered), a
chunk that stays below the target, and a chunk that passes it. -/
theorem c3_skip_target_witness :
    (readTag smallTrackCore [0xec, 0x84] 0 0 =
      .ok (.step (coreFlag smallTrackCore)
        ((0 : Int) + ((((⟨[0xec], [0x84], [1, 2, 3, 4]⟩ : Tok).id.length
          + (⟨[0xec], [0x84], [1, 2, 3, 4]⟩ : Tok).sizeBytes.length : Nat)) : Int))
        (some ((0 : Int) + 0 + (((encodeTok ⟨[0xec], [0x84], [1, 2, 3, 4]⟩).length : Nat) : Int)))
        none)) ∧
    ((transform { remainder := none, length := 4, count := 4, skipUntil := some 6, core := smallTrackCore } [9]).1 = [] ∧
      ∃ s2, (transform { remainder := none, length := 4, count := 4, skipUntil := some 6, core := smallTrackCore } [9]).2 = .ok s2 ∧ s2.skipUntil = some 6 ∧
        s2.core = smallTrackCore) ∧
    (transform { remainder := none, length := 5, count := 5, skipUntil := some 6, core := smallTrackCore } [7, 8] = transformLoop smallTrackCore [7, 8] (6 - 5) 5
        (5 + ((2 : Nat) : Int)) none) :=
  ⟨c3_skip_target.1 smallTrackCore [0xec, 0x84] 0 0 ⟨[0xec], [0x84], [1, 2, 3, 4]⟩
      [0xec, 0x84] [1, 2, 3, 4] [] (by decide) (by decide) (by decide) (by decide)
      (by decide) (by decide) (by decide) (by decide) (by decide),
    c3_skip_target.2.1 _ [9] 6 rfl (by decide) (by decide),
    c3_skip_target.2.2 _ [7, 8] 6 rfl (by decide) (by decide)⟩

end WebmOpus
